import Mathlib

/-!
Shallow embedding of the defects4j mining / synthetic-log-generation
pipeline (`defects_manager.py`, `mining_buggy_code_logs.py`,
`synthetic_log_generator.py`, `dataset_exporter.py`, `utils.py`).

Modelling conventions:
* Python strings are `List Char`; `chars s` converts a Lean string literal.
* `datetime` instants are abstract integer seconds; `timedelta(seconds=k)`
  is integer addition.  `isoformat` rendering is not modelled: a log
  timestamp is the instant itself.
* Python `float` fields (`execution_time`) are carried opaquely as `Int`;
  the code never computes on them.
* The fixed regular expressions of the source are translated into
  explicit scanning functions with Python `re` semantics (leftmost
  search, greedy quantifiers with backtracking); each translation is
  documented at its definition.
-/

/-- Convert a Lean string literal to the `List Char` representation used
throughout the development. -/
def chars (s : String) : List Char := s.data

/-- ASCII whitespace as matched by Python's `str.strip` and the regex
class `\s` (space, tab, newline, carriage return, vertical tab, form
feed). -/
def isPyWs (c : Char) : Bool :=
  c = ' ' || c = '\t' || c = '\n' || c = '\x0d' || c = '\x0b' || c = '\x0c'

/-- ASCII lower-casing, modelling Python `str.lower` on the ASCII
fragment the keyword heuristics use. -/
def asciiLower (c : Char) : Char :=
  if 'A' ≤ c ∧ c ≤ 'Z' then Char.ofNat (c.toNat + 32) else c

/-- `pat in s` for Python strings: `pat` occurs as a contiguous
substring of `s`. -/
def occursSub (pat : List Char) : List Char → Bool
  | [] => pat.isPrefixOf []
  | c :: cs => pat.isPrefixOf (c :: cs) || occursSub pat cs

/-- Decimal digits of a natural number, most significant first
(`fuel`-driven; `natDigits` supplies enough fuel). -/
def natDigitsAux : Nat → Nat → List Char
  | 0, _ => []
  | fuel + 1, n =>
    if n < 10 then [Char.ofNat (48 + n)]
    else natDigitsAux fuel (n / 10) ++ [Char.ofNat (48 + n % 10)]

/-- Decimal rendering of a natural number, as Python `str(n)`. -/
def natDigits (n : Nat) : List Char := natDigitsAux (n + 1) n

/-- Join pieces with a separator, as Python `sep.join(parts)`. -/
def joinSep (sep : List Char) : List (List Char) → List Char
  | [] => []
  | [p] => p
  | p :: q :: rest => p ++ sep ++ joinSep sep (q :: rest)

/-! ## Data model (`utils.py`)

`Defects4JBug.checkout_path` (an optional filesystem path filled in by
the out-of-scope orchestration) is omitted: no claim concerns it and it
never reaches the JSONL export. -/

/-- `utils.Defects4JBug`. -/
structure Defects4JBug where
  project : List Char
  bug_id : List Char
  triggering_tests : List (List Char)
  bug_report_url : List Char
  patch : List Char
  modified_classes : List (List Char)
deriving DecidableEq

/-- `utils.TestOutput`.  `timestamp` is an abstract instant. -/
structure TestOutput where
  test_name : List Char
  status : List Char
  error_message : Option (List Char)
  stack_trace : Option (List Char)
  execution_time : Int
  timestamp : Int
deriving DecidableEq

/-- Values stored in a log entry's `metadata` dict. -/
inductive MVal where
  | s (v : List Char)
  | n (v : Nat)
  | i (v : Int)
  | os (v : Option (List Char))
  | ls (v : List (List Char))
deriving DecidableEq

/-- `utils.LogEntry`; `timestamp` is the abstract instant whose
`isoformat` the Python code stores. -/
structure LogEntry where
  timestamp : Int
  level : List Char
  source : List Char
  message : List Char
  metadata : List (List Char × MVal)
deriving DecidableEq

/-- `utils.SyntheticDebugSession`. -/
structure SyntheticDebugSession where
  bug_info : Defects4JBug
  test_outputs : List TestOutput
  log_sequence : List LogEntry
  investigation_timeline : List (List Char)
  root_cause_summary : List Char
deriving DecidableEq

/-! ## Log synthesizer (`synthetic_log_generator.py`)

`SyntheticLogGenerator` stores `base_time = datetime.now()` once at
construction; generation only ever reads that stored instant, so the
generator is modelled as functions taking the session-start instant
`base : Int` explicitly. -/

/-- Python truthiness of an `Optional[str]`: `None` and `""` are falsy. -/
def truthyOpt : Option (List Char) → Bool
  | none => false
  | some l => !l.isEmpty

/-- `_generate_setup_phase`: two fixed log entries (at `base` and
`base + 5`) and two fixed timeline steps. -/
def generate_setup_phase (base : Int) (bug : Defects4JBug)
    (test_outputs : List TestOutput) : List LogEntry × List (List Char) :=
  ([{ timestamp := base, level := chars "INFO", source := chars "build",
      message := chars "Building " ++ bug.project ++ chars " project (bug "
        ++ bug.bug_id ++ chars ")",
      metadata := [(chars "project", .s bug.project),
                   (chars "bug_id", .s bug.bug_id)] },
    { timestamp := base + 5, level := chars "INFO", source := chars "test_runner",
      message := chars "Running test suite (" ++ natDigits test_outputs.length
        ++ chars " tests)",
      metadata := [(chars "test_count", .n test_outputs.length)] }],
   [chars "Started investigating " ++ bug.project ++ chars " bug #" ++ bug.bug_id,
    chars "Executed test suite to reproduce issue"])

/-- The loop body of `_generate_failure_phase`: walks the outcomes
threading the running timestamp `t`; a `FAIL` outcome advances `t` by 2
and emits an error entry, a truthy stack trace advances `t` one more
second and emits a second entry carrying the first 500 characters. -/
def generate_failure_loop (t : Int) : List TestOutput → List LogEntry × List (List Char)
  | [] => ([], [])
  | o :: rest =>
    if o.status = chars "FAIL" then
      let failEntry : LogEntry :=
        { timestamp := t + 2, level := chars "ERROR", source := chars "test",
          message := chars "Test failed: " ++ o.test_name,
          metadata := [(chars "test_name", .s o.test_name),
                       (chars "error", .os o.error_message),
                       (chars "execution_time", .i o.execution_time)] }
      let step := chars "Identified failing test: " ++ o.test_name
      if truthyOpt o.stack_trace then
        let traceEntry : LogEntry :=
          { timestamp := t + 3, level := chars "ERROR", source := chars "test",
            message := chars "Stack trace for " ++ o.test_name,
            metadata := [(chars "stack_trace",
                          .s ((o.stack_trace.getD []).take 500))] }
        let r := generate_failure_loop (t + 3) rest
        (failEntry :: traceEntry :: r.1, step :: r.2)
      else
        let r := generate_failure_loop (t + 2) rest
        (failEntry :: r.1, step :: r.2)
    else generate_failure_loop t rest

/-- `_generate_failure_phase`: the loop starts at `base + 10`. -/
def generate_failure_phase (base : Int) (_bug : Defects4JBug)
    (test_outputs : List TestOutput) : List LogEntry × List (List Char) :=
  generate_failure_loop (base + 10) test_outputs

/-- Per-class loop of `_generate_investigation_phase` (10 seconds per
class). -/
def investigation_loop (t : Int) : List (List Char) → List LogEntry × List (List Char)
  | [] => ([], [])
  | c :: rest =>
    let e : LogEntry :=
      { timestamp := t + 10, level := chars "DEBUG", source := chars "debugger",
        message := chars "Examining class: " ++ c,
        metadata := [(chars "class", .s c),
                     (chars "methods_checked",
                      .ls [chars "method1", chars "method2"])] }
    let r := investigation_loop (t + 10) rest
    (e :: r.1, (chars "Analyzed " ++ c) :: r.2)

/-- `_generate_investigation_phase`: a start entry at `base + 60` whose
metadata lists all modified classes, then the per-class loop over
`modified_classes[:3]`. -/
def generate_investigation_phase (base : Int) (bug : Defects4JBug) :
    List LogEntry × List (List Char) :=
  let start : LogEntry :=
    { timestamp := base + 60, level := chars "DEBUG", source := chars "debugger",
      message := chars "Starting code investigation",
      metadata := [(chars "modified_classes", .ls bug.modified_classes)] }
  let r := investigation_loop (base + 60) (bug.modified_classes.take 3)
  (start :: r.1, chars "Began examining modified classes" :: r.2)

/-- `_infer_root_cause_from_patch`: empty patch short-circuits, then
ordered keyword matching — `null`, `bound`/`index`, `assert` on the
lower-cased patch, `==`/`!=` on the raw patch. -/
def infer_root_cause_from_patch (patch : List Char) : List Char :=
  if patch.isEmpty then chars "Logic error in implementation"
  else if occursSub (chars "null") (patch.map asciiLower) then
    chars "Null pointer handling issue"
  else if occursSub (chars "bound") (patch.map asciiLower)
      || occursSub (chars "index") (patch.map asciiLower) then
    chars "Array bounds or indexing error"
  else if occursSub (chars "assert") (patch.map asciiLower) then
    chars "Assertion or validation error"
  else if occursSub (chars "==") patch || occursSub (chars "!=") patch then
    chars "Comparison or equality check error"
  else chars "Logic error in implementation"

/-- `_generate_discovery_phase`: two entries at `base + 120` and
`base + 125`. -/
def generate_discovery_phase (base : Int) (bug : Defects4JBug) :
    List LogEntry × List (List Char) :=
  let hint := infer_root_cause_from_patch bug.patch
  ([{ timestamp := base + 120, level := chars "INFO", source := chars "debugger",
      message := chars "Root cause identified: " ++ hint,
      metadata := [(chars "bug_url", .s bug.bug_report_url)] },
    { timestamp := base + 125, level := chars "DEBUG", source := chars "debugger",
      message := chars "Analyzing patch differences",
      metadata := [(chars "modified_files", .n bug.modified_classes.length)] }],
   [chars "Discovered root cause: " ++ hint,
    chars "Reviewed patch to understand fix"])

/-- `_generate_resolution_phase`: three fixed entries at `base + 180`,
`base + 190`, `base + 195`. -/
def generate_resolution_phase (base : Int) (bug : Defects4JBug) :
    List LogEntry × List (List Char) :=
  ([{ timestamp := base + 180, level := chars "INFO", source := chars "vcs",
      message := chars "Applying patch to fix bug",
      metadata := [(chars "bug_id", .s bug.bug_id)] },
    { timestamp := base + 190, level := chars "INFO", source := chars "test_runner",
      message := chars "Re-running tests after fix",
      metadata := [(chars "expected_result", .s (chars "PASS"))] },
    { timestamp := base + 195, level := chars "INFO", source := chars "test",
      message := chars "All tests passing after fix",
      metadata := [(chars "status", .s (chars "SUCCESS"))] }],
   [chars "Applied patch from fixed version",
    chars "Verified fix by re-running tests",
    chars "Confirmed all tests now pass"])

/-- `_generate_root_cause_summary`: fixed template plus, when the first
failing outcome carries a truthy error message, an `Error:` excerpt of
its first 100 characters followed by `...`. -/
def generate_root_cause_summary (bug : Defects4JBug)
    (test_outputs : List TestOutput) : List Char :=
  let failed_tests := test_outputs.filter (fun o => o.status = chars "FAIL")
  let summary := chars "Bug in " ++ bug.project ++ chars " (#" ++ bug.bug_id
    ++ chars "): " ++ natDigits failed_tests.length ++ chars " test(s) failed. "
    ++ chars "Root cause located in "
    ++ joinSep (chars ", ") (bug.modified_classes.take 2) ++ chars ". "
  match failed_tests.head? with
  | some o =>
    match o.error_message with
    | some m =>
      if m.isEmpty then summary
      else summary ++ chars "Error: " ++ m.take 100 ++ chars "..."
    | none => summary
  | none => summary

/-- `generate_debug_session`: the five phases in fixed order, then the
root-cause summary. -/
def generate_debug_session (base : Int) (bug : Defects4JBug)
    (test_outputs : List TestOutput) : SyntheticDebugSession :=
  let p1 := generate_setup_phase base bug test_outputs
  let p2 := generate_failure_phase base bug test_outputs
  let p3 := generate_investigation_phase base bug
  let p4 := generate_discovery_phase base bug
  let p5 := generate_resolution_phase base bug
  { bug_info := bug,
    test_outputs := test_outputs,
    log_sequence := p1.1 ++ p2.1 ++ p3.1 ++ p4.1 ++ p5.1,
    investigation_timeline := p1.2 ++ p2.2 ++ p3.2 ++ p4.2 ++ p5.2,
    root_cause_summary := generate_root_cause_summary bug test_outputs }

/-! ## Helper predicates and lemmas for the generator claims -/

/-- An outcome the failure phase narrates: status is exactly `FAIL`. -/
def isFail (o : TestOutput) : Bool := o.status = chars "FAIL"

/-- A `FAIL` outcome whose stack trace is truthy (present and
non-empty). -/
def hasTrace (o : TestOutput) : Bool := isFail o && truthyOpt o.stack_trace

theorem filter_head_eq_find (p : α → Bool) (l : List α) :
    (l.filter p).head? = l.find? p := by
  induction l with
  | nil => rfl
  | cons a t ih =>
    by_cases h : p a
    · simp [List.filter_cons, h, List.find?_cons_of_pos]
    · simp [List.filter_cons, h, List.find?_cons_of_neg, ih]

/-- Spec-side reconstruction of the root-cause summary, following the
amended wording of C4: the count is of `FAIL` outcomes, and the error
excerpt is appended exactly when the *first* failing outcome carries a
non-empty error message. -/
def specRootCauseSummary (bug : Defects4JBug) (outs : List TestOutput) : List Char :=
  chars "Bug in " ++ bug.project ++ chars " (#" ++ bug.bug_id ++ chars "): "
    ++ natDigits (outs.countP (fun o => o.status = chars "FAIL"))
    ++ chars " test(s) failed. "
    ++ chars "Root cause located in "
    ++ joinSep (chars ", ") (bug.modified_classes.take 2) ++ chars ". "
    ++ match outs.find? (fun o => o.status = chars "FAIL") with
       | some o =>
         match o.error_message with
         | some m =>
           if m.isEmpty then [] else chars "Error: " ++ m.take 100 ++ chars "..."
         | none => []
       | none => []

/-- C4 (amended): the summary equals the fixed template, with the
`Error:` excerpt appended exactly when the first failing outcome has a
non-empty error message. -/
theorem c4_root_cause_summary_template (bug : Defects4JBug) (outs : List TestOutput) :
    generate_root_cause_summary bug outs = specRootCauseSummary bug outs := by
  simp only [generate_root_cause_summary, specRootCauseSummary,
    List.countP_eq_length_filter, ← filter_head_eq_find]
  cases h : (outs.filter (fun o => decide (o.status = chars "FAIL"))).head? with
  | none => simp [h]
  | some o =>
    cases h2 : o.error_message with
    | none => simp [h, h2]
    | some m =>
      by_cases hm : m.isEmpty <;> simp [h, h2, hm]

/-- C4 counterexample: with two failing outcomes where only the second
carries an error message, no excerpt is appended (the code looks only at
the first failing outcome), so the summary does not end in an ellipsis. -/
theorem c4_counterexample :
    generate_root_cause_summary
      { project := chars "P", bug_id := chars "1", triggering_tests := [],
        bug_report_url := [], patch := [],
        modified_classes := [chars "A", chars "B"] }
      [{ test_name := chars "t1", status := chars "FAIL", error_message := none,
         stack_trace := none, execution_time := 0, timestamp := 0 },
       { test_name := chars "t2", status := chars "FAIL",
         error_message := some (chars "boom"), stack_trace := none,
         execution_time := 0, timestamp := 0 }]
      = chars "Bug in P (#1): 2 test(s) failed. Root cause located in A, B. "
    ∧ (chars "...").isSuffixOf
        (generate_root_cause_summary
          { project := chars "P", bug_id := chars "1", triggering_tests := [],
            bug_report_url := [], patch := [],
            modified_classes := [chars "A", chars "B"] }
          [{ test_name := chars "t1", status := chars "FAIL", error_message := none,
             stack_trace := none, execution_time := 0, timestamp := 0 },
           { test_name := chars "t2", status := chars "FAIL",
             error_message := some (chars "boom"), stack_trace := none,
             execution_time := 0, timestamp := 0 }]) = false := by
  constructor <;> decide

/-- C3: root-cause inference follows the fixed keyword precedence —
empty patch short-circuits to the logic-error default, then `null`, then
`bound`/`index`, then `assert` (case-insensitively), then `==`/`!=` on
the raw patch, then the default. -/
theorem c3_root_cause_keyword_precedence (p : List Char) :
    (p = [] → infer_root_cause_from_patch p = chars "Logic error in implementation")
    ∧ (occursSub (chars "null") (p.map asciiLower) = true →
        infer_root_cause_from_patch p = chars "Null pointer handling issue")
    ∧ (occursSub (chars "null") (p.map asciiLower) = false →
       (occursSub (chars "bound") (p.map asciiLower)
        || occursSub (chars "index") (p.map asciiLower)) = true →
        infer_root_cause_from_patch p = chars "Array bounds or indexing error")
    ∧ (occursSub (chars "null") (p.map asciiLower) = false →
       (occursSub (chars "bound") (p.map asciiLower)
        || occursSub (chars "index") (p.map asciiLower)) = false →
       occursSub (chars "assert") (p.map asciiLower) = true →
        infer_root_cause_from_patch p = chars "Assertion or validation error")
    ∧ (occursSub (chars "null") (p.map asciiLower) = false →
       (occursSub (chars "bound") (p.map asciiLower)
        || occursSub (chars "index") (p.map asciiLower)) = false →
       occursSub (chars "assert") (p.map asciiLower) = false →
       (occursSub (chars "==") p || occursSub (chars "!=") p) = true →
        infer_root_cause_from_patch p = chars "Comparison or equality check error")
    ∧ (occursSub (chars "null") (p.map asciiLower) = false →
       (occursSub (chars "bound") (p.map asciiLower)
        || occursSub (chars "index") (p.map asciiLower)) = false →
       occursSub (chars "assert") (p.map asciiLower) = false →
       (occursSub (chars "==") p || occursSub (chars "!=") p) = false →
        infer_root_cause_from_patch p = chars "Logic error in implementation") := by
  refine ⟨fun h => by subst h; rfl, ?_, ?_, ?_, ?_, ?_⟩
  · intro h1
    have hne : p.isEmpty = false := by
      cases p
      · exact absurd h1 (by decide)
      · rfl
    simp [infer_root_cause_from_patch, hne, h1]
  · intro h1 h2
    have hne : p.isEmpty = false := by
      cases p
      · exact absurd h2 (by decide)
      · rfl
    simp only [Bool.or_eq_true] at h2
    simp [infer_root_cause_from_patch, hne, h1, h2]
  · intro h1 h2 h3
    have hne : p.isEmpty = false := by
      cases p
      · exact absurd h3 (by decide)
      · rfl
    rw [Bool.or_eq_false_iff] at h2
    simp [infer_root_cause_from_patch, hne, h1, h2.1, h2.2, h3]
  · intro h1 h2 h3 h4
    have hne : p.isEmpty = false := by
      cases p
      · exact absurd h4 (by decide)
      · rfl
    rw [Bool.or_eq_false_iff] at h2
    simp only [Bool.or_eq_true] at h4
    simp [infer_root_cause_from_patch, hne, h1, h2.1, h2.2, h3, h4]
  · intro h1 h2 h3 h4
    by_cases hp : p = []
    · subst hp; rfl
    · have hne : p.isEmpty = false := by simpa using hp
      rw [Bool.or_eq_false_iff] at h2 h4
      simp [infer_root_cause_from_patch, hne, h1, h2.1, h2.2, h3, h4.1, h4.2]

/-- Witness for C3: a patch containing both `null` and `bound` is
classified as a null-handling issue, and the empty patch falls to the
default. -/
theorem c3_witness :
    infer_root_cause_from_patch (chars "fix null bound")
      = chars "Null pointer handling issue"
    ∧ infer_root_cause_from_patch [] = chars "Logic error in implementation" :=
  ⟨(c3_root_cause_keyword_precedence (chars "fix null bound")).2.1 (by decide),
   (c3_root_cause_keyword_precedence []).1 rfl⟩

/-! ## Phase-count and time-translation lemmas -/

theorem generate_failure_loop_lengths (outs : List TestOutput) : ∀ t : Int,
    (generate_failure_loop t outs).1.length
      = outs.countP isFail + outs.countP hasTrace
    ∧ (generate_failure_loop t outs).2.length = outs.countP isFail := by
  induction outs with
  | nil => intro t; simp [generate_failure_loop]
  | cons o rest ih =>
    intro t
    by_cases hf : o.status = chars "FAIL"
    · by_cases ht : truthyOpt o.stack_trace = true
      · simp [generate_failure_loop, hf, ht, List.countP_cons, isFail, hasTrace,
          (ih (t + 3)).1, (ih (t + 3)).2]
        omega
      · simp [generate_failure_loop, hf, ht, List.countP_cons, isFail, hasTrace,
          (ih (t + 2)).1, (ih (t + 2)).2]
        omega
    · simp [generate_failure_loop, hf, List.countP_cons, isFail, hasTrace,
        (ih t).1, (ih t).2]

theorem investigation_loop_lengths (classes : List (List Char)) : ∀ t : Int,
    (investigation_loop t classes).1.length = classes.length
    ∧ (investigation_loop t classes).2.length = classes.length := by
  induction classes with
  | nil => intro t; simp [investigation_loop]
  | cons c rest ih =>
    intro t
    simp [investigation_loop, (ih (t + 10)).1, (ih (t + 10)).2]

/-- C10: session shape — the log sequence has
`2 + f + s + 1 + min 3 c + 2 + 3` entries and the timeline
`2 + f + 1 + min 3 c + 2 + 3` entries, where `f` counts `FAIL` outcomes,
`s` counts `FAIL` outcomes with a truthy stack trace and `c` is the
number of modified classes; the outcome list is returned unchanged. -/
theorem c10_session_shape (base : Int) (bug : Defects4JBug) (outs : List TestOutput) :
    (generate_debug_session base bug outs).log_sequence.length
      = 2 + (outs.countP isFail + outs.countP hasTrace) + 1
        + min 3 bug.modified_classes.length + 2 + 3
    ∧ (generate_debug_session base bug outs).investigation_timeline.length
      = 2 + outs.countP isFail + 1 + min 3 bug.modified_classes.length + 2 + 3
    ∧ (generate_debug_session base bug outs).test_outputs = outs := by
  have h2 := generate_failure_loop_lengths outs (base + 10)
  have h3 := investigation_loop_lengths (bug.modified_classes.take 3) (base + 60)
  refine ⟨?_, ?_, rfl⟩ <;>
    simp [generate_debug_session, generate_setup_phase, generate_failure_phase,
      generate_investigation_phase, generate_discovery_phase,
      generate_resolution_phase, h2.1, h2.2, h3.1, h3.2, List.length_take] <;>
    omega

/-- Shift a log entry's timestamp by `d`, leaving everything else
unchanged. -/
def shiftLog (d : Int) (e : LogEntry) : LogEntry :=
  { e with timestamp := e.timestamp + d }

/-- Shift every log timestamp of a session by `d`. -/
def shiftSession (d : Int) (s : SyntheticDebugSession) : SyntheticDebugSession :=
  { s with log_sequence := s.log_sequence.map (shiftLog d) }

theorem generate_failure_loop_shift (d : Int) (outs : List TestOutput) : ∀ t : Int,
    generate_failure_loop (t + d) outs
      = ((generate_failure_loop t outs).1.map (shiftLog d),
         (generate_failure_loop t outs).2) := by
  induction outs with
  | nil => intro t; simp [generate_failure_loop]
  | cons o rest ih =>
    intro t
    by_cases hf : o.status = chars "FAIL"
    · by_cases ht : truthyOpt o.stack_trace = true
      · have harith : t + d + 3 = t + 3 + d := by omega
        have h2 : t + d + 2 = t + 2 + d := by omega
        simp [generate_failure_loop, hf, ht, harith, h2, ih (t + 3), shiftLog]
      · have h2 : t + d + 2 = t + 2 + d := by omega
        simp [generate_failure_loop, hf, ht, h2, ih (t + 2), shiftLog]
    · simp [generate_failure_loop, hf, ih t]

theorem investigation_loop_shift (d : Int) (classes : List (List Char)) : ∀ t : Int,
    investigation_loop (t + d) classes
      = ((investigation_loop t classes).1.map (shiftLog d),
         (investigation_loop t classes).2) := by
  induction classes with
  | nil => intro t; simp [investigation_loop]
  | cons c rest ih =>
    intro t
    have harith : t + d + 10 = t + 10 + d := by omega
    simp [investigation_loop, harith, ih (t + 10), shiftLog]

/-- C9: generation is a pure function of its inputs, and the
session-start instant enters only as a uniform shift of every log
timestamp — translating `base` by `d` translates each timestamp by `d`
and changes nothing else (messages, metadata, timeline, summary). -/
theorem c9_base_time_translation (base d : Int) (bug : Defects4JBug)
    (outs : List TestOutput) :
    generate_debug_session (base + d) bug outs
      = shiftSession d (generate_debug_session base bug outs) := by
  have h2 := generate_failure_loop_shift d outs (base + 10)
  have h3 := investigation_loop_shift d (bug.modified_classes.take 3) (base + 60)
  have e10 : base + d + 10 = base + 10 + d := by omega
  have e60 : base + d + 60 = base + 60 + d := by omega
  have e5 : base + d + 5 = base + 5 + d := by omega
  have e120 : base + d + 120 = base + 120 + d := by omega
  have e125 : base + d + 125 = base + 125 + d := by omega
  have e180 : base + d + 180 = base + 180 + d := by omega
  have e190 : base + d + 190 = base + 190 + d := by omega
  have e195 : base + d + 195 = base + 195 + d := by omega
  simp [generate_debug_session, shiftSession, generate_setup_phase,
    generate_failure_phase, generate_investigation_phase,
    generate_discovery_phase, generate_resolution_phase,
    e10, e60, e5, e120, e125, e180, e190, e195, h2, h3, shiftLog]

theorem generate_failure_loop_no_fail (outs : List TestOutput)
    (h : outs.countP isFail = 0) : ∀ t : Int,
    generate_failure_loop t outs = ([], []) := by
  induction outs with
  | nil => intro t; rfl
  | cons o rest ih =>
    intro t
    rw [List.countP_cons] at h
    by_cases hf : o.status = chars "FAIL"
    · exfalso
      simp [isFail, hf] at h
    · have hb : isFail o = false := by simp [isFail, hf]
      rw [hb] at h
      simp at h
      have hrest : rest.countP isFail = 0 :=
        List.countP_eq_zero.mpr (fun a ha => by simp [h a ha])
      simp [generate_failure_loop, hf, ih hrest t]

/-- C6: with no `FAIL` outcome the failure phase contributes no log
entries and no timeline steps, while the other four phases keep their
fixed contributions and none of them is skipped — the session is exactly
their concatenation. -/
theorem c6_zero_failures_phase_structure (base : Int) (bug : Defects4JBug)
    (outs : List TestOutput) (h : outs.countP isFail = 0) :
    generate_failure_phase base bug outs = ([], [])
    ∧ (generate_setup_phase base bug outs).1.length = 2
    ∧ (generate_setup_phase base bug outs).2.length = 2
    ∧ (generate_investigation_phase base bug).1.length
        = 1 + min 3 bug.modified_classes.length
    ∧ (generate_investigation_phase base bug).2.length
        = 1 + min 3 bug.modified_classes.length
    ∧ (generate_discovery_phase base bug).1.length = 2
    ∧ (generate_discovery_phase base bug).2.length = 2
    ∧ (generate_resolution_phase base bug).1.length = 3
    ∧ (generate_resolution_phase base bug).2.length = 3
    ∧ (generate_debug_session base bug outs).log_sequence
        = (generate_setup_phase base bug outs).1
          ++ (generate_investigation_phase base bug).1
          ++ (generate_discovery_phase base bug).1
          ++ (generate_resolution_phase base bug).1
    ∧ (generate_debug_session base bug outs).investigation_timeline
        = (generate_setup_phase base bug outs).2
          ++ (generate_investigation_phase base bug).2
          ++ (generate_discovery_phase base bug).2
          ++ (generate_resolution_phase base bug).2 := by
  have hfail := generate_failure_loop_no_fail outs h (base + 10)
  have hinv := investigation_loop_lengths (bug.modified_classes.take 3) (base + 60)
  refine ⟨by simp [generate_failure_phase, hfail], ?_, ?_, ?_, ?_, rfl, rfl, rfl, rfl, ?_, ?_⟩
  · rfl
  · rfl
  · simp [generate_investigation_phase, hinv.1, List.length_take]
    omega
  · simp [generate_investigation_phase, hinv.2, List.length_take]
    omega
  · simp [generate_debug_session, generate_failure_phase, hfail]
  · simp [generate_debug_session, generate_failure_phase, hfail]

/-- Witness for C6 at a concrete session with a single passing test: the
failure phase is empty and the full log sequence has the fixed
`2 + 0 + 1 + 1 + 2 + 3` entries. -/
theorem c6_witness :
    ([{ test_name := chars "t", status := chars "PASS", error_message := none,
        stack_trace := none, execution_time := 0,
        timestamp := 0 }] : List TestOutput).countP isFail = 0
    ∧ generate_failure_phase 0
        { project := chars "P", bug_id := chars "1", triggering_tests := [],
          bug_report_url := [], patch := [],
          modified_classes := [chars "A"] }
        [{ test_name := chars "t", status := chars "PASS", error_message := none,
           stack_trace := none, execution_time := 0, timestamp := 0 }]
      = ([], []) :=
  ⟨by decide,
   (c6_zero_failures_phase_structure 0
     { project := chars "P", bug_id := chars "1", triggering_tests := [],
       bug_report_url := [], patch := [],
       modified_classes := [chars "A"] }
     [{ test_name := chars "t", status := chars "PASS", error_message := none,
        stack_trace := none, execution_time := 0, timestamp := 0 }]
     (by decide)).1⟩

/-- C5: with more than three modified classes the investigation phase is
exactly one start entry (whose metadata lists all modified classes)
followed by one entry per class for the first three classes in order;
there is no fifth entry. -/
theorem c5_investigation_caps_at_three (base : Int) (bug : Defects4JBug)
    (h : 3 < bug.modified_classes.length) :
    (generate_investigation_phase base bug).1.length = 4
    ∧ (generate_investigation_phase base bug).2.length = 4
    ∧ ((generate_investigation_phase base bug).1.head?.map LogEntry.metadata)
        = some [(chars "modified_classes", MVal.ls bug.modified_classes)]
    ∧ (∀ i : Nat, i < 3 →
        ((generate_investigation_phase base bug).1[i + 1]?).map LogEntry.message
          = (bug.modified_classes[i]?).map (fun c => chars "Examining class: " ++ c)
        ∧ (generate_investigation_phase base bug).2[i + 1]?
          = (bug.modified_classes[i]?).map (fun c => chars "Analyzed " ++ c)) := by
  rcases hm : bug.modified_classes with _ | ⟨c0, _ | ⟨c1, _ | ⟨c2, _ | ⟨c3, rest⟩⟩⟩⟩
  · rw [hm] at h; simp at h
  · rw [hm] at h; simp at h
  · rw [hm] at h; simp at h
  · rw [hm] at h; simp at h
  · refine ⟨?_, ?_, ?_, ?_⟩
    · simp [generate_investigation_phase, investigation_loop, hm]
    · simp [generate_investigation_phase, investigation_loop, hm]
    · simp [generate_investigation_phase, hm]
    · intro i hi
      interval_cases i <;>
        simp [generate_investigation_phase, investigation_loop, hm]

/-- Witness for C5 at a concrete bug with four modified classes. -/
theorem c5_witness :
    3 < ({ project := chars "P", bug_id := chars "1", triggering_tests := [],
           bug_report_url := [], patch := [],
           modified_classes := [chars "A", chars "B", chars "C", chars "D"] }
          : Defects4JBug).modified_classes.length
    ∧ (generate_investigation_phase 0
        { project := chars "P", bug_id := chars "1", triggering_tests := [],
          bug_report_url := [], patch := [],
          modified_classes := [chars "A", chars "B", chars "C", chars "D"] }).1.length = 4 :=
  ⟨by decide,
   (c5_investigation_caps_at_three 0
     { project := chars "P", bug_id := chars "1", triggering_tests := [],
       bug_report_url := [], patch := [],
       modified_classes := [chars "A", chars "B", chars "C", chars "D"] }
     (by decide)).1⟩

/-! ## Bug-metadata parser (`_parse_bug_info`)

The parser applies three fixed regular expressions to the `defects4j
info` text.  Each is translated into an explicit matcher with Python
`re` semantics:

* section blocks: `<header>\s*\n((?:^[ \t].*\n)+)` with `re.MULTILINE` —
  `re.search` scans start positions left to right; at a hit of the
  literal header, greedy `\s*` backtracks from its maximal length down
  until the next character is a newline and the following text starts
  with one or more newline-terminated lines beginning with a space or
  tab (the captured block);
* triggering-test bullets: `^\s*-\s+(?!->)(.+)$` in
  `defects_manager.py`, `^\s*-\s*(.+)$` in `mining_buggy_code_logs.py`,
  collected with `re.findall`;
* modified-source bullets: `^\s*-\s*(.+)$` in both files;
* the URL line: `Bug report url:\s*(.+)` without `re.MULTILINE`.
-/

/-- Lines of a text, splitting at `'\n'`; all elements but the last are
the newline-terminated lines, the last is the unterminated tail. -/
def splitNl : List Char → List (List Char)
  | [] => [[]]
  | c :: cs =>
    if c = '\n' then [] :: splitNl cs
    else
      match splitNl cs with
      | [] => [[c]]
      | l :: ls => (c :: l) :: ls

/-- A line matched by `^[ \t]` starts with a space or tab. -/
def startsIndent : List Char → Bool
  | c :: _ => c = ' ' || c = '\t'
  | [] => false

/-- `(?:^[ \t].*\n)+` at a line start: `.*` cannot cross a newline, so
each repetition is exactly one newline-terminated line beginning with a
space or tab, and the greedy `+` takes the maximal nonempty prefix run
of such lines (an unterminated final line cannot participate). -/
def blockLinesAt (cs : List Char) : Option (List Char) :=
  let block := (splitNl cs).dropLast.takeWhile startsIndent
  if block.isEmpty then none
  else some ((block.map (fun l => l ++ ['\n'])).flatten)

/-- Number of characters matched by a maximal `\s*` at the front. -/
def wsLen (cs : List Char) : Nat := (cs.takeWhile isPyWs).length

/-- Backtracking of `\s*\n((?:^[ \t].*\n)+)` right after the header
literal: greedy `\s*` tries its maximal length first and shrinks;
`tryNl cs a` tries `\s*` of length `a` (all candidates are within the
whitespace prefix), requiring the following character to be the `\n` and
the rest to match the block. -/
def tryNl (cs : List Char) : Nat → Option (List Char)
  | 0 =>
    match cs with
    | '\n' :: rest => blockLinesAt rest
    | _ => none
  | a + 1 =>
    match cs.drop (a + 1) with
    | '\n' :: rest =>
      match blockLinesAt rest with
      | some b => some b
      | none => tryNl cs a
    | _ => tryNl cs a

/-- Match `\s*\n((?:^[ \t].*\n)+)` at the start of `cs` (the text right
after the section header literal). -/
def blockAfterHeader (cs : List Char) : Option (List Char) :=
  tryNl cs (wsLen cs)

/-- `re.search` for a section pattern beginning with a literal header:
try every start position left to right; at each occurrence of the
literal the remainder must match `\s*\n(block)`, otherwise the search
continues at the next position.  Headers are nonempty, so the
end-of-text position never matches. -/
def section_search (header : List Char) : List Char → Option (List Char)
  | [] => none
  | c :: cs =>
    if header.isPrefixOf (c :: cs) then
      match blockAfterHeader (List.drop header.length (c :: cs)) with
      | some b => some b
      | none => section_search header cs
    else section_search header cs

/-- The `(?!->)` lookahead: does the text start with `->`? -/
def startsArrow : List Char → Bool
  | '-' :: '>' :: _ => true
  | _ => false

/-- Can `(?!->)(.+)$` match at `r` (for `excl = true`; without the
lookahead for `excl = false`)?  `.+` needs at least one character and
`.` does not match a newline. -/
def capOk (excl : Bool) : List Char → Bool
  | [] => false
  | c :: cs => c ≠ '\n' && !(excl && startsArrow (c :: cs))

/-- Greedy-`.+` capture up to the `$` of the current line, and the
remaining text from the match end. -/
def mkCap (r : List Char) : List Char × List Char :=
  (r.takeWhile (fun c => c ≠ '\n'), r.dropWhile (fun c => c ≠ '\n'))

/-- Backtracking of the whitespace run after the dash in
`-\s+(?!->)(.+)$` (`kmin = 1`) or `-\s*(.+)$` (`kmin = 0`): `k` is the
candidate length of the run, tried longest first. -/
def bulletCap (excl : Bool) (t : List Char) (kmin : Nat) : Nat → Option (List Char × List Char)
  | 0 =>
    if kmin = 0 ∧ capOk excl t then some (mkCap t) else none
  | k + 1 =>
    if kmin ≤ k + 1 ∧ capOk excl (t.drop (k + 1)) then some (mkCap (t.drop (k + 1)))
    else bulletCap excl t kmin k

/-- Try the bullet pattern at a `^` position: `^\s*` is deterministic
(maximal whitespace run, which may cross newlines, then a literal dash),
then the whitespace run after the dash backtracks. -/
def bulletTry (excl : Bool) (cs : List Char) : Option (List Char × List Char) :=
  match cs.dropWhile isPyWs with
  | '-' :: t => bulletCap excl t (if excl then 1 else 0) (wsLen t)
  | _ => none

/-- Skip one newline (a match of the bullet pattern ends at `$`, i.e.
just before a newline or at the end of the text). -/
def afterNl : List Char → List Char
  | '\n' :: rest => rest
  | other => other

/-- Advance to the next line start. -/
def dropLine (cs : List Char) : List Char :=
  afterNl (cs.dropWhile (fun c => c ≠ '\n'))

/-- `re.findall` of the bullet pattern over a block: only `^` positions
can match; after a match, scanning resumes at the match end (before the
newline); after a failure the scan advances to the next line start.
`fuel` bounds the recursion; the block length suffices. -/
def bulletScan (excl : Bool) : Nat → List Char → List (List Char)
  | 0, _ => []
  | _ + 1, [] => []
  | fuel + 1, c :: cs =>
    match bulletTry excl (c :: cs) with
    | some (cap, rest) => cap :: bulletScan excl fuel (afterNl rest)
    | none => bulletScan excl fuel (dropLine (c :: cs))

/-- `\s*(.+)` right after the URL header literal (no `re.MULTILINE`, so
`\s*` may cross newlines while `.` may not): greedy `\s*` backtracks
from length `k` downward until `.+` can match at least one non-newline
character. -/
def urlCap (t : List Char) : Nat → Option (List Char)
  | 0 =>
    match t with
    | c :: rest => if c = '\n' then none else some ((c :: rest).takeWhile (fun x => x ≠ '\n'))
    | [] => none
  | k + 1 =>
    match t.drop (k + 1) with
    | c :: rest =>
      if c = '\n' then urlCap t k
      else some ((c :: rest).takeWhile (fun x => x ≠ '\n'))
    | [] => urlCap t k

/-- `re.search(r"Bug report url:\s*(.+)", text)`: scan start positions
left to right; at a hit of the literal the remainder must admit a
nonempty capture. -/
def url_search (header : List Char) : List Char → Option (List Char)
  | [] => none
  | c :: cs =>
    if header.isPrefixOf (c :: cs) then
      match urlCap (List.drop header.length (c :: cs))
              (wsLen (List.drop header.length (c :: cs))) with
      | some u => some u
      | none => url_search header cs
    else url_search header cs

/-- The record `_parse_bug_info` fills (before `project`/`bug_id` are
added by `get_bug_info`). -/
structure ParsedBugInfo where
  triggering_tests : List (List Char)
  bug_report_url : List Char
  modified_classes : List (List Char)
  patch : List Char
deriving DecidableEq

/-- `_parse_bug_info`.  `excl = true` models the version in
`defects_manager.py`, whose triggering-test bullet pattern
`^\s*-\s+(?!->)(.+)$` excludes `->` after the dash; `excl = false`
models the copy in `mining_buggy_code_logs.py`, whose pattern
`^\s*-\s*(.+)$` has no such exclusion.  The modified-sources bullet
pattern is `^\s*-\s*(.+)$` in both files, and `patch` is always set to
the empty string. -/
def parse_bug_info (excl : Bool) (info_output : List Char) : ParsedBugInfo :=
  let tests :=
    match section_search (chars "Root cause in triggering tests:") info_output with
    | some block => bulletScan excl (block.length + 1) block
    | none => []
  let url :=
    match url_search (chars "Bug report url:") info_output with
    | some u => u
    | none => []
  let sources :=
    match section_search (chars "List of modified sources:") info_output with
    | some block => bulletScan false (block.length + 1) block
    | none => []
  { triggering_tests := tests, bug_report_url := url,
    modified_classes := sources, patch := [] }

/-- C1 (evaluation at the failing input): on a well-formed info text
whose triggering-tests block contains one bulleted test followed by a
`-->` exception-detail line, the `defects_manager.py` parser returns
exactly the test, while the `mining_buggy_code_logs.py` copy also
captures the continuation line (as `-> some exception detail`),
violating the claim. -/
theorem c1_continuation_marker_eval :
    (parse_bug_info true
      (chars "Root cause in triggering tests:\n  - org.apache.TestClass::testMethod\n    --> some exception detail\nBug report url: http://example\n")).triggering_tests
      = [chars "org.apache.TestClass::testMethod"]
    ∧ (parse_bug_info false
      (chars "Root cause in triggering tests:\n  - org.apache.TestClass::testMethod\n    --> some exception detail\nBug report url: http://example\n")).triggering_tests
      = [chars "org.apache.TestClass::testMethod",
         chars "-> some exception detail"] := by
  constructor <;> decide

theorem section_search_eq_none (header : List Char) (text : List Char)
    (h : occursSub header text = false) : section_search header text = none := by
  induction text with
  | nil => rfl
  | cons c cs ih =>
    rw [occursSub, Bool.or_eq_false_iff] at h
    simp [section_search, h.1, ih h.2]

theorem url_search_eq_none (header : List Char) (text : List Char)
    (h : occursSub header text = false) : url_search header text = none := by
  induction text with
  | nil => rfl
  | cons c cs ih =>
    rw [occursSub, Bool.or_eq_false_iff] at h
    simp [url_search, h.1, ih h.2]

/-- C7: the parser is total (the model is a total function by
construction, mirroring the code's if/else handling of `re` misses) and
each absent section yields its default: no triggering-tests header means
an empty test list, no URL header means the empty string, no
modified-sources header means an empty class list, and `patch` is always
the empty string. -/
theorem c7_parser_defaults_on_missing_sections (text : List Char) :
    (occursSub (chars "Root cause in triggering tests:") text = false →
      (parse_bug_info true text).triggering_tests = [])
    ∧ (occursSub (chars "Bug report url:") text = false →
      (parse_bug_info true text).bug_report_url = [])
    ∧ (occursSub (chars "List of modified sources:") text = false →
      (parse_bug_info true text).modified_classes = [])
    ∧ (parse_bug_info true text).patch = [] := by
  refine ⟨fun h => ?_, fun h => ?_, fun h => ?_, rfl⟩
  · simp [parse_bug_info, section_search_eq_none _ _ h]
  · simp [parse_bug_info, url_search_eq_none _ _ h]
  · simp [parse_bug_info, section_search_eq_none _ _ h]

/-- Witness for C7 at a concrete sectionless text. -/
theorem c7_witness :
    occursSub (chars "Root cause in triggering tests:")
      (chars "hello world\nnothing here\n") = false
    ∧ (parse_bug_info true (chars "hello world\nnothing here\n")).triggering_tests = []
    ∧ (parse_bug_info true (chars "hello world\nnothing here\n")).patch = [] :=
  ⟨by decide,
   (c7_parser_defaults_on_missing_sections
     (chars "hello world\nnothing here\n")).1 (by decide),
   (c7_parser_defaults_on_missing_sections
     (chars "hello world\nnothing here\n")).2.2.2⟩

/-! ## Detailed-failure extraction (`_extract_error_from_failing_tests`)

The function tries three test-name variants in order; for each it
searches the report for the header regex
`(?m)^---\s*<variant>(?:\s+(.*))?$` and, on a hit, cuts the text from
the match end to the next `(?m)^---\s` header (or the end), reassembling
`group(1)` (text captured after the variant on — or, via a
newline-crossing `\s+`, after — the header line) with the cut text.

`re` semantics captured below: `\s` also matches `'\n'`, so the greedy
`\s+` of the optional group crosses the end of the header line and
captures the first non-blank content line as `group(1)`, dropping that
line's leading whitespace; `$` with `(?m)` matches before a newline or
at the end; searching a slice `content[start:]` lets `^` match at slice
position 0. -/

/-- Python `test_name.replace("::", ".")` (non-overlapping, left to
right). -/
def replaceColons : List Char → List Char
  | [] => []
  | [c] => [c]
  | c :: d :: cs =>
    if c = ':' ∧ d = ':' then '.' :: replaceColons cs
    else c :: replaceColons (d :: cs)

/-- Python `test_name.split("::")[0] if "::" in test_name else
test_name`: everything before the first `::` (the whole string when
there is none). -/
def beforeColons : List Char → List Char
  | [] => []
  | [c] => [c]
  | c :: d :: cs =>
    if c = ':' ∧ d = ':' then []
    else c :: beforeColons (d :: cs)

/-- `lstrip("\r\n")`. -/
def lstripNl (cs : List Char) : List Char :=
  cs.dropWhile (fun c => c = '\n' || c = '\x0d')

/-- `rstrip()` (all trailing whitespace). -/
def rstripWs (cs : List Char) : List Char :=
  (cs.reverse.dropWhile isPyWs).reverse

/-- Match `(?:\s+(.*))?$` at `u`, the text right after the variant
literal: the greedy optional group takes a maximal whitespace run of
length `m ≥ 1` (possibly crossing newlines) and captures the rest of the
then-current line; with `m = 0` the bare `$` must hold.  Returns the
optional `group(1)` and the text from the match end. -/
def afterVariant (u : List Char) : Option (Option (List Char) × List Char) :=
  let m := wsLen u
  if m = 0 then
    match u with
    | [] => some (none, [])
    | c :: _ => if c = '\n' then some (none, u) else none
  else
    some (some ((u.drop m).takeWhile (fun c => c ≠ '\n')),
          (u.drop m).dropWhile (fun c => c ≠ '\n'))

/-- One candidate for the `\s*` before the variant: `k` whitespace
characters, then the variant literal, then `(?:\s+(.*))?$`. -/
def tryVariantAt (variant t : List Char) (k : Nat) : Option (Option (List Char) × List Char) :=
  if variant.isPrefixOf (t.drop k) then
    afterVariant ((t.drop k).drop variant.length)
  else none

/-- Backtracking for the greedy `\s*` before the variant, longest
candidate first. -/
def tryVariant (variant t : List Char) : Nat → Option (Option (List Char) × List Char)
  | 0 => tryVariantAt variant t 0
  | k + 1 =>
    match tryVariantAt variant t (k + 1) with
    | some r => some r
    | none => tryVariant variant t k

/-- Match `^---\s*<variant>(?:\s+(.*))?$` at a `^` position. -/
def headerMatchAt (variant : List Char) (cs : List Char) :
    Option (Option (List Char) × List Char) :=
  if (chars "---").isPrefixOf cs then
    tryVariant variant (cs.drop 3) (wsLen (cs.drop 3))
  else none

/-- `re.search` of the header pattern: try each `^` position left to
right (`atStart` tracks whether the current position follows a newline
or is the start). -/
def findHeaderGo (variant : List Char) : List Char → Bool → Option (Option (List Char) × List Char)
  | [], _ => none
  | c :: cs, atStart =>
    if atStart then
      match headerMatchAt variant (c :: cs) with
      | some r => some r
      | none => findHeaderGo variant cs (c = '\n')
    else findHeaderGo variant cs (c = '\n')

/-- Does `^---\s` match here? -/
def isDashesWs (cs : List Char) : Bool :=
  (chars "---").isPrefixOf cs &&
    (match cs.drop 3 with
     | d :: _ => isPyWs d
     | [] => false)

/-- Offset of the first `(?m)^---\s` match in a slice (`^` also matches
at slice position 0); the slice length when there is none. -/
def nextHeaderLen : List Char → Bool → Nat
  | [], _ => 0
  | c :: cs, atStart =>
    if atStart && isDashesWs (c :: cs) then 0
    else 1 + nextHeaderLen cs (c = '\n')

/-- The body of the per-variant lookup: find the header, cut the section
up to the next `--- ` header or the end, trim it (`lstrip("\r\n")` then
`rstrip()`), prepend a truthy `group(1)` with its trailing whitespace
stripped plus a newline, and accept the result only if it has
non-whitespace content. -/
def extract_assemble (g1 : Option (List Char)) (s : List Char) : Option (List Char) :=
  let seg := s.take (nextHeaderLen s true)
  let rest_block := rstripWs (lstripNl seg)
  let header_extra := g1.getD []
  let es :=
    if header_extra.isEmpty then rest_block
    else rstripWs header_extra ++ '\n' :: rest_block
  if es.any (fun c => !(isPyWs c)) then some es else none

def extract_error_for_variant (content variant : List Char) : Option (List Char) :=
  match findHeaderGo variant content true with
  | none => none
  | some (g1, s) => extract_assemble g1 s

/-- `_extract_error_from_failing_tests`: the three variants in order —
the name as given, `::` replaced by `.`, the part before `::` — and the
first variant whose section has content wins. -/
def extract_error_from_failing_tests (content test_name : List Char) : Option (List Char) :=
  match extract_error_for_variant content test_name with
  | some e => some e
  | none =>
    match extract_error_for_variant content (replaceColons test_name) with
    | some e => some e
    | none => extract_error_for_variant content (beforeColons test_name)

/-- C2 counterexample: for the report `--- t\n   x\n` and test `t` the
function returns `x\n` — the leading whitespace of the block's content
line is dropped (it is swallowed by the `\s+` of the header regex's
optional group) and a trailing newline is appended, so the result is not
the block between the headers with only leading/trailing blank lines
trimmed (which would keep the indentation: `   x\n` or `   x`). -/
theorem c2_counterexample :
    extract_error_from_failing_tests (chars "--- t\n   x\n") (chars "t")
      = some (chars "x\n")
    ∧ chars "x\n" ≠ chars "   x\n"
    ∧ chars "x\n" ≠ chars "   x" := by
  refine ⟨by decide, by decide, by decide⟩

/-! ## Well-formed failing-tests reports (for the amended C2)

A canonical report is a list of sections `--- <name>` each followed by
its body lines.  Well-formedness keeps the inputs inside the regular
part of the format: names are nonempty and whitespace-free, body lines
are nonempty, contain no newline or carriage return and do not start
with `---`, the first body line starts and ends with non-whitespace (its
leading whitespace would be swallowed by the header regex and its
trailing whitespace stripped) and the last body line ends with
non-whitespace (the section trim would strip it). -/

/-- A section of the `failing_tests` report. -/
structure ReportSec where
  name : List Char
  body : List (List Char)
deriving DecidableEq

def renderBody (body : List (List Char)) : List Char :=
  (body.map (fun l => l ++ ['\n'])).flatten

def renderSec (sec : ReportSec) : List Char :=
  chars "--- " ++ sec.name ++ '\n' :: renderBody sec.body

def renderReport (secs : List ReportSec) : List Char :=
  (secs.map renderSec).flatten

def headNonWs : List Char → Bool
  | [] => false
  | c :: _ => !(isPyWs c)

def lastNonWs (l : List Char) : Bool := headNonWs l.reverse

def wfVariant (v : List Char) : Bool :=
  !v.isEmpty && v.all (fun c => !(isPyWs c))

def wfBodyLine (l : List Char) : Bool :=
  !l.isEmpty && l.all (fun c => c ≠ '\n' && c ≠ '\x0d')
    && !((chars "---").isPrefixOf l)

def wfBody : List (List Char) → Bool
  | [] => false
  | first :: rest =>
    (first :: rest).all wfBodyLine && headNonWs first && lastNonWs first
      && lastNonWs ((first :: rest).getLastD [])

def wfSec (sec : ReportSec) : Bool := wfVariant sec.name && wfBody sec.body

def wfReport (secs : List ReportSec) : Bool := secs.all wfSec

def wfQuery (t : List Char) : Bool :=
  wfVariant t && !((chars "::").isPrefixOf t)

/-- First section carrying a given name. -/
def lookupSec (v : List Char) (secs : List ReportSec) : Option ReportSec :=
  secs.find? (fun sec => sec.name = v)

/-- What the extractor reassembles for a matched body: the first line,
a newline, and the remaining lines joined by newlines. -/
def sectionText (body : List (List Char)) : List Char :=
  match body with
  | [] => []
  | first :: rest => first ++ '\n' :: joinSep (chars "\n") rest

/-! Basic character-list lemmas for the extraction proof. -/

theorem takeWhile_neq_append (l y : List Char)
    (h : l.all (fun c => c ≠ '\n') = true) :
    (l ++ '\n' :: y).takeWhile (fun c => c ≠ '\n') = l := by
  induction l with
  | nil => simp [List.takeWhile]
  | cons c cs ih =>
    rw [List.all_cons, Bool.and_eq_true] at h
    rw [List.cons_append, List.takeWhile_cons, if_pos h.1, ih h.2]

theorem dropWhile_neq_append (l y : List Char)
    (h : l.all (fun c => c ≠ '\n') = true) :
    (l ++ '\n' :: y).dropWhile (fun c => c ≠ '\n') = '\n' :: y := by
  induction l with
  | nil => simp [List.dropWhile]
  | cons c cs ih =>
    rw [List.all_cons, Bool.and_eq_true] at h
    rw [List.cons_append, List.dropWhile_cons, if_pos h.1, ih h.2]

theorem wsLen_eq_zero_of_headNonWs (l : List Char) (h : headNonWs l = true) :
    wsLen l = 0 := by
  cases l with
  | nil => rfl
  | cons c cs =>
    simp only [headNonWs, Bool.not_eq_true'] at h
    simp [wsLen, List.takeWhile_cons, h]

theorem wsLen_cons_ws (c : Char) (l : List Char) (h : isPyWs c = true) :
    wsLen (c :: l) = wsLen l + 1 := by
  simp [wsLen, List.takeWhile_cons, h]

theorem headNonWs_append (l x : List Char) (h : headNonWs l = true) :
    headNonWs (l ++ x) = true := by
  cases l with
  | nil => simp [headNonWs] at h
  | cons c cs => simpa [headNonWs] using h

theorem isPrefixOf_append_self (l x : List Char) : l.isPrefixOf (l ++ x) = true := by
  rw [List.isPrefixOf_iff_prefix]
  exact List.prefix_append l x

theorem chars_dashes3 : chars "---" = '-' :: '-' :: ['-'] := rfl

theorem chars_dashes4 : chars "--- " = '-' :: '-' :: '-' :: [' '] := rfl

theorem headNonWs_of_all (l : List Char) (hne : l ≠ [])
    (h : l.all (fun c => !(isPyWs c)) = true) : headNonWs l = true := by
  cases l with
  | nil => exact absurd rfl hne
  | cons c cs =>
    rw [List.all_cons, Bool.and_eq_true] at h
    simpa [headNonWs] using h.1

theorem afterVariant_none_of_headNonWs (u : List Char) (h : headNonWs u = true) :
    afterVariant u = none := by
  cases u with
  | nil => simp [headNonWs] at h
  | cons c cs =>
    have h0 : wsLen (c :: cs) = 0 := wsLen_eq_zero_of_headNonWs _ h
    have hc : ¬ (c = '\n') := by
      intro hcn
      rw [hcn] at h
      simp [headNonWs, isPyWs] at h
    simp [afterVariant, h0, hc]

theorem nonWs_of_wfVariant {v : List Char} (hv : wfVariant v = true) :
    v ≠ [] ∧ v.all (fun c => !(isPyWs c)) = true := by
  rw [wfVariant, Bool.and_eq_true] at hv
  exact ⟨by simpa using hv.1, hv.2⟩

/-- After a non-matching name on a header line, `(?:\s+(.*))?$` cannot
hold where the variant literal ends. -/
theorem headerTail_noMatch (v name X : List Char)
    (hv : wfVariant v = true) (hn : wfVariant name = true) (hne : name ≠ v)
    (hpre : v.isPrefixOf (name ++ '\n' :: X) = true) :
    afterVariant ((name ++ '\n' :: X).drop v.length) = none := by
  obtain ⟨hvne, hvall⟩ := nonWs_of_wfVariant hv
  obtain ⟨hnne, hnall⟩ := nonWs_of_wfVariant hn
  have hvp : v <+: name ++ '\n' :: X := List.isPrefixOf_iff_prefix.mp hpre
  have hnp : name <+: name ++ '\n' :: X := List.prefix_append name ('\n' :: X)
  rcases List.prefix_or_prefix_of_prefix hvp hnp with hcase | hcase
  · have hlt : v.length < name.length := by
      rcases Nat.lt_or_ge v.length name.length with hlt | hge
      · exact hlt
      · exfalso
        have heq : v.length = name.length := Nat.le_antisymm hcase.length_le hge
        exact hne (hcase.eq_of_length heq).symm
    have hdrop : (name ++ '\n' :: X).drop v.length
        = name.drop v.length ++ '\n' :: X := by
      rw [List.drop_append_eq_append_drop,
        Nat.sub_eq_zero_of_le (Nat.le_of_lt hlt), List.drop_zero]
    rw [hdrop]
    apply afterVariant_none_of_headNonWs
    apply headNonWs_append
    apply headNonWs_of_all
    · intro hnil
      have := congrArg List.length hnil
      rw [List.length_drop] at this
      simp at this
      omega
    · rw [List.all_eq_true] at hnall ⊢
      exact fun c hc => hnall c (List.drop_subset v.length name hc)
  · obtain ⟨v', hv'⟩ := hcase
    subst hv'
    have hv'ne : v' ≠ [] := by
      intro h0
      rw [h0, List.append_nil] at hne
      exact hne rfl
    have hpref : v' <+: '\n' :: X := (List.prefix_append_right_inj name).mp hvp
    cases v' with
    | nil => exact absurd rfl hv'ne
    | cons c cs =>
      exfalso
      obtain ⟨tail, htail⟩ := hpref
      rw [List.cons_append] at htail
      have hc : c = '\n' := (List.cons.injEq _ _ _ _ ▸ htail).1
      rw [List.all_append, Bool.and_eq_true, List.all_cons, Bool.and_eq_true] at hvall
      rw [hc] at hvall
      simp [isPyWs] at hvall

/-- A mismatching first character refutes `isPrefixOf`. -/
theorem isPrefixOf_cons_false (a b : Char) (as bs : List Char) (h : a ≠ b) :
    (a :: as).isPrefixOf (b :: bs) = false := by
  simp [List.isPrefixOf, h]

/-- The header regex rejects the header line of a section with a
different name. -/
theorem headerMatchAt_skip (v name X : List Char) (hv : wfVariant v = true)
    (hn : wfVariant name = true) (hne : name ≠ v) :
    headerMatchAt v (chars "--- " ++ name ++ '\n' :: X) = none := by
  obtain ⟨hvne, hvall⟩ := nonWs_of_wfVariant hv
  obtain ⟨hnne, hnall⟩ := nonWs_of_wfVariant hn
  have hsplit : chars "--- " ++ name ++ '\n' :: X
      = chars "---" ++ (' ' :: (name ++ '\n' :: X)) := by
    rw [chars_dashes4, chars_dashes3]
    simp
  rw [headerMatchAt, hsplit, isPrefixOf_append_self]
  simp only [if_true]
  have hdrop3 : (chars "---" ++ (' ' :: (name ++ '\n' :: X))).drop 3
      = ' ' :: (name ++ '\n' :: X) := by
    rw [show (3 : Nat) = (chars "---").length from rfl, List.drop_left]
  rw [hdrop3]
  have hname : headNonWs (name ++ '\n' :: X) = true :=
    headNonWs_append _ _ (headNonWs_of_all _ hnne hnall)
  have hws : wsLen (' ' :: (name ++ '\n' :: X)) = 1 := by
    rw [wsLen_cons_ws _ _ (by decide), wsLen_eq_zero_of_headNonWs _ hname]
  rw [hws]
  show (match tryVariantAt v (' ' :: (name ++ '\n' :: X)) 1 with
        | some r => some r
        | none => tryVariant v (' ' :: (name ++ '\n' :: X)) 0) = none
  have h1 : tryVariantAt v (' ' :: (name ++ '\n' :: X)) 1 = none := by
    rw [tryVariantAt]
    simp only [List.drop_succ_cons, List.drop_zero]
    by_cases hp : v.isPrefixOf (name ++ '\n' :: X) = true
    · rw [hp]
      simp only [if_true]
      exact headerTail_noMatch v name X hv hn hne hp
    · rw [Bool.not_eq_true] at hp
      simp [hp]
  have h0 : tryVariantAt v (' ' :: (name ++ '\n' :: X)) 0 = none := by
    rw [tryVariantAt]
    cases v with
    | nil => exact absurd rfl hvne
    | cons c cs =>
      have hc : c ≠ ' ' := by
        rw [List.all_cons, Bool.and_eq_true] at hvall
        intro hcsp
        rw [hcsp] at hvall
        simp [isPyWs] at hvall
      simp [isPrefixOf_cons_false c ' ' cs _ hc]
  rw [h1, tryVariant, h0]

theorem wfBodyLine_no_nl {l : List Char} (h : wfBodyLine l = true) :
    l.all (fun c => c ≠ '\n') = true := by
  rw [wfBodyLine, Bool.and_eq_true, Bool.and_eq_true] at h
  rw [List.all_eq_true] at h ⊢
  intro c hc
  have := h.1.2 c hc
  rw [Bool.and_eq_true] at this
  exact this.1

/-- The header regex accepts the header line of the section with the
queried name and captures the first body line, ending before that
line's newline. -/
theorem headerMatchAt_match (v b Z : List Char)
    (hv : wfVariant v = true) (hb : headNonWs b = true)
    (hnl : b.all (fun c => c ≠ '\n') = true) :
    headerMatchAt v (chars "--- " ++ v ++ '\n' :: (b ++ '\n' :: Z))
      = some (some b, '\n' :: Z) := by
  obtain ⟨hvne, hvall⟩ := nonWs_of_wfVariant hv
  have hsplit : chars "--- " ++ v ++ '\n' :: (b ++ '\n' :: Z)
      = chars "---" ++ (' ' :: (v ++ '\n' :: (b ++ '\n' :: Z))) := by
    rw [chars_dashes4, chars_dashes3]
    simp
  rw [headerMatchAt, hsplit, isPrefixOf_append_self]
  simp only [if_true]
  have hdrop3 : (chars "---" ++ (' ' :: (v ++ '\n' :: (b ++ '\n' :: Z)))).drop 3
      = ' ' :: (v ++ '\n' :: (b ++ '\n' :: Z)) := by
    rw [show (3 : Nat) = (chars "---").length from rfl, List.drop_left]
  rw [hdrop3]
  have hhead : headNonWs (v ++ '\n' :: (b ++ '\n' :: Z)) = true :=
    headNonWs_append _ _ (headNonWs_of_all _ hvne hvall)
  have hws : wsLen (' ' :: (v ++ '\n' :: (b ++ '\n' :: Z))) = 1 := by
    rw [wsLen_cons_ws _ _ (by decide), wsLen_eq_zero_of_headNonWs _ hhead]
  rw [hws]
  show (match tryVariantAt v (' ' :: (v ++ '\n' :: (b ++ '\n' :: Z))) 1 with
        | some r => some r
        | none => tryVariant v (' ' :: (v ++ '\n' :: (b ++ '\n' :: Z))) 0)
      = some (some b, '\n' :: Z)
  have h1 : tryVariantAt v (' ' :: (v ++ '\n' :: (b ++ '\n' :: Z))) 1
      = some (some b, '\n' :: Z) := by
    rw [tryVariantAt]
    simp only [List.drop_succ_cons, List.drop_zero]
    rw [isPrefixOf_append_self]
    simp only [if_true]
    rw [List.drop_left]
    have hu : wsLen ('\n' :: (b ++ '\n' :: Z)) = 1 := by
      rw [wsLen_cons_ws _ _ (by decide)]
      rw [wsLen_eq_zero_of_headNonWs _ (headNonWs_append _ _ hb)]
    rw [afterVariant, hu]
    simp only [Nat.one_ne_zero, if_false]
    rw [List.drop_succ_cons, List.drop_zero,
      takeWhile_neq_append _ _ hnl, dropWhile_neq_append _ _ hnl]
  rw [h1]

theorem isPrefixOf_append_nl (p : List Char) (hp : p.all (fun c => c ≠ '\n') = true) :
    ∀ l y : List Char, p.isPrefixOf (l ++ '\n' :: y) = true → p.isPrefixOf l = true := by
  induction p with
  | nil => intro l y _; cases l <;> rfl
  | cons a as ih =>
    intro l y h
    rw [List.all_cons, Bool.and_eq_true] at hp
    cases l with
    | nil =>
      exfalso
      rw [List.nil_append, List.isPrefixOf] at h
      rw [Bool.and_eq_true, beq_iff_eq] at h
      have ha : a ≠ '\n' := by simpa using hp.1
      exact ha h.1
    | cons b bs =>
      rw [List.cons_append, List.isPrefixOf, Bool.and_eq_true] at h
      rw [List.isPrefixOf, Bool.and_eq_true]
      exact ⟨h.1, ih hp.2 bs y h.2⟩

/-- The header regex rejects body lines (they do not start with `---`). -/
theorem headerMatchAt_bodyLine (v l X : List Char) (hl : wfBodyLine l = true) :
    headerMatchAt v (l ++ '\n' :: X) = none := by
  rw [wfBodyLine, Bool.and_eq_true, Bool.and_eq_true] at hl
  have hpre : (chars "---").isPrefixOf (l ++ '\n' :: X) = false := by
    rw [Bool.eq_false_iff]
    intro hc
    have := isPrefixOf_append_nl (chars "---") (by decide) l X hc
    rw [this] at hl
    simp at hl
  rw [headerMatchAt, hpre]
  simp

theorem findHeaderGo_false_line (v l rest : List Char)
    (hnl : l.all (fun c => c ≠ '\n') = true) :
    findHeaderGo v (l ++ '\n' :: rest) false = findHeaderGo v rest true := by
  induction l with
  | nil => simp [findHeaderGo]
  | cons c cs ih =>
    rw [List.all_cons, Bool.and_eq_true] at hnl
    have hc : (decide (c = '\n')) = false := by simpa using hnl.1
    rw [List.cons_append]
    rw [findHeaderGo]
    simp only [Bool.false_eq_true, if_false]
    rw [hc]
    exact ih hnl.2

theorem findHeaderGo_skip_line (v l rest : List Char)
    (hnl : l.all (fun c => c ≠ '\n') = true)
    (hhm : headerMatchAt v (l ++ '\n' :: rest) = none) :
    findHeaderGo v (l ++ '\n' :: rest) true = findHeaderGo v rest true := by
  cases l with
  | nil =>
    rw [List.nil_append] at hhm ⊢
    rw [findHeaderGo, if_pos rfl, hhm]
    simp [findHeaderGo]
  | cons c cs =>
    rw [List.all_cons, Bool.and_eq_true] at hnl
    have hc : (decide (c = '\n')) = false := by simpa using hnl.1
    rw [List.cons_append] at hhm ⊢
    rw [findHeaderGo, if_pos rfl, hhm, hc]
    exact findHeaderGo_false_line v cs rest hnl.2

theorem findHeaderGo_skip_body (v : List Char) (body : List (List Char)) (R : List Char)
    (hb : body.all wfBodyLine = true) :
    findHeaderGo v (renderBody body ++ R) true = findHeaderGo v R true := by
  induction body with
  | nil => simp [renderBody]
  | cons l ls ih =>
    rw [List.all_cons, Bool.and_eq_true] at hb
    have h1 : renderBody (l :: ls) ++ R = l ++ '\n' :: (renderBody ls ++ R) := by
      simp [renderBody]
    rw [h1,
      findHeaderGo_skip_line v l _ (wfBodyLine_no_nl hb.1)
        (headerMatchAt_bodyLine v l _ hb.1),
      ih hb.2]

theorem isDashesWs_false_of_not_dashes (cs : List Char)
    (h : (chars "---").isPrefixOf cs = false) : isDashesWs cs = false := by
  rw [isDashesWs, h]
  rfl

theorem nextHeaderLen_false_line (l rest : List Char)
    (hnl : l.all (fun c => c ≠ '\n') = true) :
    nextHeaderLen (l ++ '\n' :: rest) false = l.length + 1 + nextHeaderLen rest true := by
  induction l with
  | nil =>
    rw [List.nil_append, nextHeaderLen]
    simp
  | cons c cs ih =>
    rw [List.all_cons, Bool.and_eq_true] at hnl
    have hc : (decide (c = '\n')) = false := by simpa using hnl.1
    rw [List.cons_append, nextHeaderLen]
    simp only [Bool.false_and, Bool.false_eq_true, if_false]
    rw [hc, ih hnl.2, List.length_cons]
    omega

theorem nextHeaderLen_skip_line (l rest : List Char)
    (hnl : l.all (fun c => c ≠ '\n') = true)
    (hnd : isDashesWs (l ++ '\n' :: rest) = false) :
    nextHeaderLen (l ++ '\n' :: rest) true = l.length + 1 + nextHeaderLen rest true := by
  cases l with
  | nil =>
    rw [List.nil_append] at hnd ⊢
    rw [nextHeaderLen]
    simp only [hnd, Bool.and_false, Bool.false_eq_true, if_false]
    simp
  | cons c cs =>
    rw [List.all_cons, Bool.and_eq_true] at hnl
    have hc : (decide (c = '\n')) = false := by simpa using hnl.1
    rw [List.cons_append] at hnd ⊢
    rw [nextHeaderLen]
    simp only [hnd, Bool.and_false, Bool.false_eq_true, if_false]
    rw [hc, nextHeaderLen_false_line cs rest hnl.2, List.length_cons]
    omega

theorem nextHeaderLen_body (body : List (List Char)) (R : List Char)
    (hb : body.all wfBodyLine = true) :
    nextHeaderLen (renderBody body ++ R) true
      = (renderBody body).length + nextHeaderLen R true := by
  induction body with
  | nil => simp [renderBody]
  | cons l ls ih =>
    rw [List.all_cons, Bool.and_eq_true] at hb
    have h1 : renderBody (l :: ls) ++ R = l ++ '\n' :: (renderBody ls ++ R) := by
      simp [renderBody]
    have hnd : isDashesWs (l ++ '\n' :: (renderBody ls ++ R)) = false := by
      apply isDashesWs_false_of_not_dashes
      rw [Bool.eq_false_iff]
      intro hc
      have h2 := isPrefixOf_append_nl (chars "---") (by decide) l _ hc
      rw [wfBodyLine, Bool.and_eq_true, Bool.and_eq_true] at hb
      rw [h2] at hb
      simp at hb
    rw [h1, nextHeaderLen_skip_line l _ (wfBodyLine_no_nl hb.1) hnd, ih hb.2]
    have : (renderBody (l :: ls)).length = l.length + 1 + (renderBody ls).length := by
      simp [renderBody]
      omega
    omega

theorem nextHeaderLen_report (secs : List ReportSec) :
    nextHeaderLen (renderReport secs) true = 0 := by
  cases secs with
  | nil => rfl
  | cons sec rest =>
    have h1 : renderReport (sec :: rest)
        = '-' :: ('-' :: '-' :: ' ' :: (sec.name ++ '\n' :: renderBody sec.body)
            ++ renderReport rest) := by
      simp [renderReport, renderSec, chars_dashes4]
    rw [h1, nextHeaderLen]
    simp [isDashesWs, chars_dashes3, List.isPrefixOf, isPyWs]

theorem lstripNl_nl_body (bs : List (List Char)) (hb : bs.all wfBodyLine = true) :
    ∀ R : List Char, headNonWs R = true ∨ R = [] →
    lstripNl ('\n' :: (renderBody bs ++ R)) = renderBody bs ++ R := by
  intro R hR
  cases bs with
  | nil =>
    simp only [renderBody, List.map_nil, List.flatten_nil, List.nil_append]
    rcases hR with hR | hR
    · cases R with
      | nil => simp [headNonWs] at hR
      | cons c cs =>
        have hc1 : ¬ (c = '\n') := by
          intro h0; rw [h0] at hR; simp [headNonWs, isPyWs] at hR
        have hc2 : ¬ (c = '\x0d') := by
          intro h0; rw [h0] at hR; simp [headNonWs, isPyWs] at hR
        simp [lstripNl, List.dropWhile_cons, hc1, hc2]
    · rw [hR]
      rfl
  | cons l ls =>
    rw [List.all_cons, Bool.and_eq_true] at hb
    rw [wfBodyLine, Bool.and_eq_true, Bool.and_eq_true] at hb
    obtain ⟨⟨⟨hne, hall⟩, _⟩, _⟩ := hb
    cases l with
    | nil => simp at hne
    | cons c cs =>
      rw [List.all_cons, Bool.and_eq_true] at hall
      rw [Bool.and_eq_true] at hall
      have hc1 : ¬ (c = '\n') := by simpa using hall.1.1
      have hc2 : ¬ (c = '\x0d') := by simpa using hall.1.2
      have hshape : renderBody ((c :: cs) :: ls) ++ R
          = c :: (cs ++ '\n' :: (renderBody ls ++ R)) := by
        simp [renderBody]
      rw [hshape]
      simp [lstripNl, List.dropWhile_cons, hc1, hc2]

theorem rstripWs_append_nl (x : List Char) : rstripWs (x ++ ['\n']) = rstripWs x := by
  rw [rstripWs, rstripWs, List.reverse_append]
  simp [List.dropWhile_cons, isPyWs]

theorem rstripWs_of_lastNonWs (x : List Char) (h : lastNonWs x = true) :
    rstripWs x = x := by
  rw [lastNonWs] at h
  cases hx : x.reverse with
  | nil => rw [rstripWs, hx]; simpa using congrArg List.reverse hx
  | cons c cs =>
    rw [hx] at h
    have hc : (isPyWs c) = false := by simpa [headNonWs] using h
    rw [rstripWs, hx, List.dropWhile_cons, hc]
    simp only [Bool.false_eq_true, if_false]
    rw [← hx, List.reverse_reverse]

theorem headNonWs_append_eq (l x : List Char) (hl : l ≠ []) :
    headNonWs (l ++ x) = headNonWs l := by
  cases l with
  | nil => exact absurd rfl hl
  | cons c cs => rfl

theorem lastNonWs_append (a b : List Char) (hb : b ≠ []) :
    lastNonWs (a ++ b) = lastNonWs b := by
  rw [lastNonWs, lastNonWs, List.reverse_append]
  exact headNonWs_append_eq _ _ (by simpa using hb)

theorem joinSep_nl_ne_nil (bs : List (List Char)) (hne : bs ≠ [])
    (hall : bs.all (fun l => !l.isEmpty) = true) :
    joinSep (chars "\n") bs ≠ [] := by
  cases bs with
  | nil => exact absurd rfl hne
  | cons l ls =>
    rw [List.all_cons, Bool.and_eq_true] at hall
    have hl : l ≠ [] := by simpa using hall.1
    cases ls with
    | nil => simpa [joinSep] using hl
    | cons m ms =>
      rw [joinSep]
      intro h0
      rw [List.append_eq_nil] at h0
      rw [List.append_eq_nil] at h0
      exact hl h0.1.1

theorem lastNonWs_joinSep (bs : List (List Char))
    (hall : bs.all (fun l => !l.isEmpty) = true)
    (hlast : lastNonWs (bs.getLastD []) = true) :
    lastNonWs (joinSep (chars "\n") bs) = true := by
  induction bs with
  | nil => simp [lastNonWs, headNonWs] at hlast
  | cons l ls ih =>
    rw [List.all_cons, Bool.and_eq_true] at hall
    cases ls with
    | nil => simpa [joinSep, List.getLastD_cons] using hlast
    | cons m ms =>
      rw [joinSep]
      have hne : joinSep (chars "\n") (m :: ms) ≠ [] :=
        joinSep_nl_ne_nil _ (by simp) hall.2
      have hsep : chars "\n" ++ joinSep (chars "\n") (m :: ms) ≠ [] := by
        intro h0
        rw [List.append_eq_nil] at h0
        exact absurd h0.1 (by decide)
      rw [List.append_assoc, lastNonWs_append _ _ hsep,
        lastNonWs_append _ _ hne]
      apply ih hall.2
      rw [List.getLastD_cons] at hlast
      exact hlast

theorem renderBody_eq_joinSep (bs : List (List Char)) (hne : bs ≠ []) :
    renderBody bs = joinSep (chars "\n") bs ++ ['\n'] := by
  induction bs with
  | nil => exact absurd rfl hne
  | cons l ls ih =>
    cases ls with
    | nil => simp [renderBody, joinSep]
    | cons m ms =>
      rw [joinSep]
      have h1 : renderBody (l :: m :: ms) = l ++ '\n' :: renderBody (m :: ms) := by
        simp [renderBody]
      rw [h1, ih (by simp)]
      simp [chars]

theorem rest_block_body (bs : List (List Char))
    (hall : bs.all wfBodyLine = true)
    (hlast : bs = [] ∨ lastNonWs (bs.getLastD []) = true) :
    rstripWs (renderBody bs) = joinSep (chars "\n") bs := by
  cases bs with
  | nil => rfl
  | cons l ls =>
    rcases hlast with h0 | hlast
    · exact absurd h0 (by simp)
    have hne : (l :: ls).all (fun x => !x.isEmpty) = true := by
      rw [List.all_eq_true] at hall ⊢
      intro x hx
      have := hall x hx
      rw [wfBodyLine, Bool.and_eq_true, Bool.and_eq_true] at this
      exact this.1.1
    rw [renderBody_eq_joinSep _ (by simp), rstripWs_append_nl,
      rstripWs_of_lastNonWs _ (lastNonWs_joinSep _ hne hlast)]

theorem wfBody_all {body : List (List Char)} (h : wfBody body = true) :
    body.all wfBodyLine = true := by
  cases body with
  | nil => simp [wfBody] at h
  | cons l ls =>
    rw [wfBody, Bool.and_eq_true, Bool.and_eq_true, Bool.and_eq_true] at h
    exact h.1.1.1

theorem wfBody_parts {b : List Char} {bs : List (List Char)}
    (h : wfBody (b :: bs) = true) :
    (b :: bs).all wfBodyLine = true ∧ headNonWs b = true ∧ lastNonWs b = true
    ∧ lastNonWs ((b :: bs).getLastD []) = true := by
  rw [wfBody, Bool.and_eq_true, Bool.and_eq_true, Bool.and_eq_true] at h
  exact ⟨h.1.1.1, h.1.1.2, h.1.2, h.2⟩

theorem findHeaderGo_start (v cs : List Char) (r : Option (List Char) × List Char)
    (hne : cs ≠ []) (h : headerMatchAt v cs = some r) :
    findHeaderGo v cs true = some r := by
  cases cs with
  | nil => exact absurd rfl hne
  | cons c cs' => simp [findHeaderGo, h]

theorem extract_for_variant_congr (c₁ c₂ v : List Char)
    (h : findHeaderGo v c₁ true = findHeaderGo v c₂ true) :
    extract_error_for_variant c₁ v = extract_error_for_variant c₂ v := by
  rw [extract_error_for_variant, extract_error_for_variant, h]

theorem findHeaderGo_skip_sec (v : List Char) (sec : ReportSec) (R : List Char)
    (hw : wfSec sec = true) (hv : wfVariant v = true) (hne : sec.name ≠ v) :
    findHeaderGo v (renderSec sec ++ R) true = findHeaderGo v R true := by
  obtain ⟨name, body⟩ := sec
  rw [wfSec, Bool.and_eq_true] at hw
  simp only at hne
  have hshape : renderSec ⟨name, body⟩ ++ R
      = (chars "--- " ++ name) ++ '\n' :: (renderBody body ++ R) := by
    simp [renderSec]
  have hnl : (chars "--- " ++ name).all (fun c => c ≠ '\n') = true := by
    rw [List.all_append, Bool.and_eq_true]
    refine ⟨by decide, ?_⟩
    have := (nonWs_of_wfVariant hw.1).2
    rw [List.all_eq_true] at this ⊢
    intro c hc
    have hcw := this c hc
    rw [Bool.not_eq_true'] at hcw
    simp only [decide_eq_true_eq]
    intro h0
    rw [h0] at hcw
    simp [isPyWs] at hcw
  have hhm : headerMatchAt v ((chars "--- " ++ name) ++ '\n' :: (renderBody body ++ R))
      = none := headerMatchAt_skip v name (renderBody body ++ R) hv hw.1 hne
  rw [hshape, findHeaderGo_skip_line v _ _ hnl hhm,
    findHeaderGo_skip_body v body R (wfBody_all hw.2)]

theorem isDashesWs_nl (x : List Char) : isDashesWs ('\n' :: x) = false := by
  simp [isDashesWs, chars_dashes3, List.isPrefixOf]

theorem getLastD_irrel (l : List (List Char)) (a b : List Char) (h : l ≠ []) :
    l.getLastD a = l.getLastD b := by
  cases l with
  | nil => exact absurd rfl h
  | cons c cs => rw [List.getLastD_cons, List.getLastD_cons]

/-- The whole per-section computation at the matching section. -/
theorem extract_for_variant_cons_match (v b : List Char) (bs : List (List Char))
    (rest : List ReportSec) (hv : wfVariant v = true)
    (hw : wfSec ⟨v, b :: bs⟩ = true) :
    extract_error_for_variant (renderSec ⟨v, b :: bs⟩ ++ renderReport rest) v
      = some (sectionText (b :: bs)) := by
  rw [wfSec, Bool.and_eq_true] at hw
  obtain ⟨hall, hheadb, hlastb, hlastAll⟩ := wfBody_parts hw.2
  rw [List.all_cons, Bool.and_eq_true] at hall
  have hbnl : b.all (fun c => c ≠ '\n') = true := wfBodyLine_no_nl hall.1
  have hcontent : renderSec ⟨v, b :: bs⟩ ++ renderReport rest
      = chars "--- " ++ v ++ '\n' :: (b ++ '\n' :: (renderBody bs ++ renderReport rest)) := by
    simp [renderSec, renderBody]
  have hfind : findHeaderGo v (renderSec ⟨v, b :: bs⟩ ++ renderReport rest) true
      = some (some b, '\n' :: (renderBody bs ++ renderReport rest)) := by
    rw [hcontent]
    apply findHeaderGo_start
    · intro h0
      rw [List.append_assoc, List.append_eq_nil] at h0
      exact absurd h0.1 (by decide)
    · exact headerMatchAt_match v b (renderBody bs ++ renderReport rest) hv hheadb hbnl
  have hstep : extract_error_for_variant (renderSec ⟨v, b :: bs⟩ ++ renderReport rest) v
      = extract_assemble (some b) ('\n' :: (renderBody bs ++ renderReport rest)) := by
    rw [extract_error_for_variant, hfind]
  rw [hstep]
  have hnext : nextHeaderLen ('\n' :: (renderBody bs ++ renderReport rest)) true
      = 1 + (renderBody bs).length := by
    rw [nextHeaderLen]
    simp only [isDashesWs_nl, Bool.and_false, Bool.false_eq_true, if_false]
    show 1 + nextHeaderLen (renderBody bs ++ renderReport rest) true
      = 1 + (renderBody bs).length
    rw [nextHeaderLen_body bs _ hall.2, nextHeaderLen_report]
    omega
  have hseg : ('\n' :: (renderBody bs ++ renderReport rest)).take
      (nextHeaderLen ('\n' :: (renderBody bs ++ renderReport rest)) true)
      = '\n' :: renderBody bs := by
    rw [hnext]
    rw [show (1 + (renderBody bs).length) = (renderBody bs).length + 1 from by omega]
    rw [List.take_succ_cons, List.take_left]
  have hlstrip : lstripNl ('\n' :: renderBody bs) = renderBody bs := by
    have := lstripNl_nl_body bs hall.2 [] (Or.inr rfl)
    simpa using this
  have hrest : rstripWs (renderBody bs) = joinSep (chars "\n") bs := by
    apply rest_block_body bs hall.2
    cases bs with
    | nil => exact Or.inl rfl
    | cons m ms =>
      right
      rw [List.getLastD_cons] at hlastAll
      rw [getLastD_irrel (m :: ms) [] b (by simp)]
      exact hlastAll
  have hbne : b.isEmpty = false := by
    rw [wfBodyLine, Bool.and_eq_true, Bool.and_eq_true] at hall
    have := hall.1.1.1
    rw [Bool.not_eq_true'] at this
    exact this
  rw [extract_assemble]
  simp only [hseg, hlstrip, hrest, Option.getD_some, hbne, Bool.false_eq_true, if_false]
  rw [rstripWs_of_lastNonWs b hlastb]
  have hany : (b ++ '\n' :: joinSep (chars "\n") bs).any (fun c => !(isPyWs c)) = true := by
    cases b with
    | nil => simp [headNonWs] at hheadb
    | cons c cs =>
      rw [List.cons_append, List.any_cons]
      have : (isPyWs c) = false := by simpa [headNonWs] using hheadb
      simp [this]
  rw [if_pos hany]
  rfl

/-- Per-variant lookup over a well-formed report: the result is the
reassembled section text of the first section named by the variant. -/
theorem extract_for_variant_report (v : List Char) (secs : List ReportSec)
    (hr : wfReport secs = true) (hv : wfVariant v = true) :
    extract_error_for_variant (renderReport secs) v
      = (lookupSec v secs).map (fun sec => sectionText sec.body) := by
  induction secs with
  | nil =>
    simp [extract_error_for_variant, renderReport, findHeaderGo, lookupSec]
  | cons sec rest ih =>
    rw [wfReport, List.all_cons, Bool.and_eq_true] at hr
    have hrep : renderReport (sec :: rest) = renderSec sec ++ renderReport rest := by
      simp [renderReport]
    by_cases hn : sec.name = v
    · obtain ⟨name, body⟩ := sec
      simp only at hn
      subst hn
      have hbody : body ≠ [] := by
        intro h0
        rw [wfSec, Bool.and_eq_true, h0] at hr
        simp [wfBody] at hr
      cases body with
      | nil => exact absurd rfl hbody
      | cons b bs =>
        rw [hrep, extract_for_variant_cons_match name b bs rest hv hr.1]
        rw [lookupSec, List.find?_cons_of_pos _ (by simp)]
        rfl
    · have hlook : lookupSec v (sec :: rest) = lookupSec v rest := by
        rw [lookupSec, lookupSec, List.find?_cons_of_neg _ (by simp [hn])]
      rw [hrep,
        extract_for_variant_congr _ _ v
          (findHeaderGo_skip_sec v sec (renderReport rest) hr.1 hv hn),
        ih hr.2, hlook]

theorem replaceColons_ne_nil : ∀ t : List Char, t ≠ [] → replaceColons t ≠ []
  | [], h => absurd rfl h
  | [c], _ => by simp [replaceColons]
  | c :: d :: cs, _ => by
    by_cases hc : c = ':' ∧ d = ':' <;> simp [replaceColons, hc]

theorem replaceColons_all_nonws : ∀ t : List Char,
    t.all (fun c => !(isPyWs c)) = true →
    (replaceColons t).all (fun c => !(isPyWs c)) = true
  | [], _ => rfl
  | [c], h => by simpa [replaceColons] using h
  | c :: d :: cs, h => by
    rw [List.all_cons, List.all_cons, Bool.and_eq_true, Bool.and_eq_true] at h
    by_cases hc : c = ':' ∧ d = ':'
    · rw [replaceColons, if_pos hc, List.all_cons, Bool.and_eq_true]
      exact ⟨by decide, replaceColons_all_nonws cs h.2.2⟩
    · rw [replaceColons, if_neg hc, List.all_cons, Bool.and_eq_true]
      refine ⟨h.1, replaceColons_all_nonws (d :: cs) ?_⟩
      rw [List.all_cons, Bool.and_eq_true]
      exact ⟨h.2.1, h.2.2⟩

theorem beforeColons_all_nonws : ∀ t : List Char,
    t.all (fun c => !(isPyWs c)) = true →
    (beforeColons t).all (fun c => !(isPyWs c)) = true
  | [], _ => rfl
  | [c], h => by simpa [beforeColons] using h
  | c :: d :: cs, h => by
    rw [List.all_cons, List.all_cons, Bool.and_eq_true, Bool.and_eq_true] at h
    by_cases hc : c = ':' ∧ d = ':'
    · rw [beforeColons, if_pos hc]; rfl
    · rw [beforeColons, if_neg hc, List.all_cons, Bool.and_eq_true]
      refine ⟨h.1, beforeColons_all_nonws (d :: cs) ?_⟩
      rw [List.all_cons, Bool.and_eq_true]
      exact ⟨h.2.1, h.2.2⟩

theorem beforeColons_ne_nil : ∀ t : List Char, t ≠ [] →
    (chars "::").isPrefixOf t = false → beforeColons t ≠ []
  | [], h, _ => absurd rfl h
  | [c], _, _ => by simp [beforeColons]
  | c :: d :: cs, _, hp => by
    have hcc : chars "::" = [':', ':'] := rfl
    rw [hcc] at hp
    have hc : ¬ (c = ':' ∧ d = ':') := by
      rintro ⟨h1, h2⟩
      subst h1
      subst h2
      simp [List.isPrefixOf] at hp
    rw [beforeColons, if_neg hc]
    simp

theorem wfVariant_replaceColons (t : List Char) (h : wfVariant t = true) :
    wfVariant (replaceColons t) = true := by
  obtain ⟨hne, hall⟩ := nonWs_of_wfVariant h
  rw [wfVariant, Bool.and_eq_true]
  constructor
  · simpa using replaceColons_ne_nil t hne
  · exact replaceColons_all_nonws t hall

theorem wfVariant_beforeColons (t : List Char) (h : wfVariant t = true)
    (hp : (chars "::").isPrefixOf t = false) :
    wfVariant (beforeColons t) = true := by
  obtain ⟨hne, hall⟩ := nonWs_of_wfVariant h
  rw [wfVariant, Bool.and_eq_true]
  constructor
  · simpa using beforeColons_ne_nil t hne hp
  · exact beforeColons_all_nonws t hall

/-- C2 (amended): on a well-formed report the lookup tries the three
variants in order — the name as given, `::` replaced by `.`, the part
before `::` — and for the first variant naming a section it returns that
section's reassembled text: the first body line, a newline, and the
remaining body lines joined by newlines (so the indentation the header
regex swallowed from the first line stays dropped, and a single-line
body yields a trailing newline); with no match it returns none. -/
theorem c2_extract_detailed_failure_amended (secs : List ReportSec) (t : List Char)
    (hr : wfReport secs = true) (hq : wfQuery t = true) :
    extract_error_from_failing_tests (renderReport secs) t
      = ((lookupSec t secs).or ((lookupSec (replaceColons t) secs).or
          (lookupSec (beforeColons t) secs))).map (fun sec => sectionText sec.body) := by
  rw [wfQuery, Bool.and_eq_true] at hq
  have hp : (chars "::").isPrefixOf t = false := by
    have h0 := hq.2
    rw [Bool.not_eq_true'] at h0
    exact h0
  have h1 := extract_for_variant_report t secs hr hq.1
  have h2 := extract_for_variant_report (replaceColons t) secs hr
    (wfVariant_replaceColons t hq.1)
  have h3 := extract_for_variant_report (beforeColons t) secs hr
    (wfVariant_beforeColons t hq.1 hp)
  rw [extract_error_from_failing_tests, h1, h2, h3]
  cases lookupSec t secs <;> cases lookupSec (replaceColons t) secs <;>
    cases lookupSec (beforeColons t) secs <;> simp

/-- Witness for C2 (amended) on a concrete two-section report. -/
theorem c2_witness :
    wfReport
      [{ name := chars "org.Foo::bar",
         body := [chars "AssertionError: x", chars "\tat Foo.java:1"] },
       { name := chars "other.T", body := [chars "E"] }] = true
    ∧ wfQuery (chars "org.Foo::bar") = true
    ∧ extract_error_from_failing_tests
        (renderReport
          [{ name := chars "org.Foo::bar",
             body := [chars "AssertionError: x", chars "\tat Foo.java:1"] },
           { name := chars "other.T", body := [chars "E"] }])
        (chars "org.Foo::bar")
      = some (chars "AssertionError: x\n\tat Foo.java:1") :=
  ⟨by decide, by decide,
   (c2_extract_detailed_failure_amended
     [{ name := chars "org.Foo::bar",
        body := [chars "AssertionError: x", chars "\tat Foo.java:1"] },
      { name := chars "other.T", body := [chars "E"] }]
     (chars "org.Foo::bar") (by decide) (by decide)).trans (by decide)⟩

/-! ## JSONL exporter (`dataset_exporter.export_to_jsonl`)

`export_to_jsonl` writes, per session, `json.dumps(entry) + "\n"` where
`entry` has exactly the five reduced fields.  JSON values are embedded
as a mutual syntax tree; `renderJ` mirrors `json.dumps` with its default
separators (`", "`, `": "`), short escapes `\" \\ \n \t \r \b \f` and
`\u00XX` for the remaining control characters (escaping of non-ASCII
characters and float formatting are outside the fragment the entries
use: the model renders its abstracted integer fields as JSON integers).
`parseJV` is a standard JSON reader for this fragment, used to state
parseability and the round trip. -/

mutual

inductive JVal where
  | jnull : JVal
  | jstr : List Char → JVal
  | jint : Int → JVal
  | jarr : JArr → JVal
  | jobj : JObj → JVal

inductive JArr where
  | anil : JArr
  | acons : JVal → JArr → JArr

inductive JObj where
  | onil : JObj
  | ocons : List Char → JVal → JObj → JObj

end

def hexDigitChar (n : Nat) : Char :=
  if n < 10 then Char.ofNat (48 + n) else Char.ofNat (87 + n)

def escChar (c : Char) : List Char :=
  if c = '"' then ['\\', '"']
  else if c = '\\' then ['\\', '\\']
  else if c = '\n' then ['\\', 'n']
  else if c = '\t' then ['\\', 't']
  else if c = '\x0d' then ['\\', 'r']
  else if c = '\x08' then ['\\', 'b']
  else if c = '\x0c' then ['\\', 'f']
  else if c.toNat < 32 then
    ['\\', 'u', '0', '0', hexDigitChar (c.toNat / 16), hexDigitChar (c.toNat % 16)]
  else [c]

def escStr (s : List Char) : List Char := (s.map escChar).flatten

def renderInt (n : Int) : List Char :=
  if n < 0 then '-' :: natDigits (-n).toNat else natDigits n.toNat

mutual

def renderJ : JVal → List Char
  | .jnull => chars "null"
  | .jstr s => '"' :: (escStr s ++ ['"'])
  | .jint n => renderInt n
  | .jarr a => '[' :: (renderArr a ++ [']'])
  | .jobj o => '\x7b' :: (renderObj o ++ ['\x7d'])

def renderArr : JArr → List Char
  | .anil => []
  | .acons v .anil => renderJ v
  | .acons v (.acons w t) =>
    renderJ v ++ chars ", " ++ renderArr (.acons w t)

def renderObj : JObj → List Char
  | .onil => []
  | .ocons k v .onil =>
    '"' :: (escStr k ++ ['"']) ++ chars ": " ++ renderJ v
  | .ocons k v (.ocons k2 v2 t) =>
    '"' :: (escStr k ++ ['"']) ++ chars ": " ++ renderJ v ++ chars ", "
      ++ renderObj (.ocons k2 v2 t)

end

def hexVal (c : Char) : Option Nat :=
  if '0' ≤ c ∧ c ≤ '9' then some (c.toNat - 48)
  else if 'a' ≤ c ∧ c ≤ 'f' then some (c.toNat - 87)
  else none

def parseStrBody : List Char → Option (List Char × List Char)
  | [] => none
  | c :: rest =>
    if c = '"' then some ([], rest)
    else if c = '\\' then
      match rest with
      | [] => none
      | e :: rest2 =>
        if e = 'n' then (parseStrBody rest2).map (fun r => ('\n' :: r.1, r.2))
        else if e = 't' then (parseStrBody rest2).map (fun r => ('\t' :: r.1, r.2))
        else if e = 'r' then (parseStrBody rest2).map (fun r => ('\x0d' :: r.1, r.2))
        else if e = 'b' then (parseStrBody rest2).map (fun r => ('\x08' :: r.1, r.2))
        else if e = 'f' then (parseStrBody rest2).map (fun r => ('\x0c' :: r.1, r.2))
        else if e = '"' then (parseStrBody rest2).map (fun r => ('"' :: r.1, r.2))
        else if e = '\\' then (parseStrBody rest2).map (fun r => ('\\' :: r.1, r.2))
        else if e = 'u' then
          match rest2 with
          | a :: b :: c2 :: d :: rest3 =>
            match hexVal a, hexVal b, hexVal c2, hexVal d with
            | some x, some y, some z, some w =>
              (parseStrBody rest3).map
                (fun r => (Char.ofNat (((x * 16 + y) * 16 + z) * 16 + w) :: r.1, r.2))
            | _, _, _, _ => none
          | _ => none
        else none
    else (parseStrBody rest).map (fun r => (c :: r.1, r.2))

def isDigitC (c : Char) : Bool := '0' ≤ c ∧ c ≤ '9'

def digitVal (c : Char) : Nat := c.toNat - 48

def digitsToNat (ds : List Char) : Nat :=
  ds.foldl (fun a c => a * 10 + digitVal c) 0

def parseIntTok (cs : List Char) : Option (Int × List Char) :=
  match cs with
  | [] => none
  | c :: rest =>
    if c = '-' then
      if (rest.takeWhile isDigitC).isEmpty then none
      else some (-(digitsToNat (rest.takeWhile isDigitC) : Int),
                 rest.dropWhile isDigitC)
    else
      if ((c :: rest).takeWhile isDigitC).isEmpty then none
      else some ((digitsToNat ((c :: rest).takeWhile isDigitC) : Int),
                 (c :: rest).dropWhile isDigitC)

def skipSpaces (cs : List Char) : List Char := cs.dropWhile (fun c => c = ' ')

mutual

def parseJV : Nat → List Char → Option (JVal × List Char)
  | 0, _ => none
  | fuel + 1, cs =>
    if (chars "null").isPrefixOf cs then some (.jnull, cs.drop 4)
    else
      match cs with
      | [] => none
      | c :: rest =>
        if c = '"' then (parseStrBody rest).map (fun r => (JVal.jstr r.1, r.2))
        else if c = '[' then
          match rest with
          | [] => none
          | d :: rest2 =>
            if d = ']' then some (.jarr .anil, rest2)
            else (parseArrItems fuel (d :: rest2)).map (fun r => (JVal.jarr r.1, r.2))
        else if c = '\x7b' then
          match rest with
          | [] => none
          | d :: rest2 =>
            if d = '\x7d' then some (.jobj .onil, rest2)
            else (parseObjItems fuel (d :: rest2)).map (fun r => (JVal.jobj r.1, r.2))
        else (parseIntTok (c :: rest)).map (fun r => (JVal.jint r.1, r.2))

def parseArrItems : Nat → List Char → Option (JArr × List Char)
  | 0, _ => none
  | fuel + 1, cs =>
    match parseJV fuel cs with
    | none => none
    | some (v, rest) =>
      match rest with
      | [] => none
      | d :: rest2 =>
        if d = ',' then
          match parseArrItems fuel (skipSpaces rest2) with
          | some (t, rest3) => some (.acons v t, rest3)
          | none => none
        else if d = ']' then some (.acons v .anil, rest2)
        else none

def parseObjItems : Nat → List Char → Option (JObj × List Char)
  | 0, _ => none
  | fuel + 1, cs =>
    match cs with
    | [] => none
    | c :: rest =>
      if c = '"' then
        match parseStrBody rest with
        | none => none
        | some (k, rest1) =>
          match rest1 with
          | [] => none
          | d :: rest2 =>
            if d = ':' then
              match parseJV fuel (skipSpaces rest2) with
              | none => none
              | some (v, rest3) =>
                match rest3 with
                | [] => none
                | d2 :: rest4 =>
                  if d2 = ',' then
                    match parseObjItems fuel (skipSpaces rest4) with
                    | some (t, rest5) => some (.ocons k v t, rest5)
                    | none => none
                  else if d2 = '\x7d' then some (.ocons k v .onil, rest4)
                  else none
            else none
      else none

end

/-- Parse a whole line as a single JSON value (nothing may remain). -/
def parseJson (line : List Char) : Option JVal :=
  match parseJV (line.length + 1) line with
  | some (v, []) => some v
  | _ => none

mutual

def sizeJ : JVal → Nat
  | .jnull => 1
  | .jstr _ => 1
  | .jint _ => 1
  | .jarr a => sizeA a + 1
  | .jobj o => sizeO o + 1

def sizeA : JArr → Nat
  | .anil => 1
  | .acons v t => sizeJ v + sizeA t

def sizeO : JObj → Nat
  | .onil => 1
  | .ocons _ v t => sizeJ v + sizeO t

end

/-! Round-trip lemmas for the JSON fragment. -/

def headFails (p : Char → Bool) : List Char → Prop
  | [] => True
  | c :: _ => p c = false

theorem takeWhile_append_stop (p : Char → Bool) (l y : List Char)
    (hl : l.all p = true) (hy : headFails p y) :
    (l ++ y).takeWhile p = l ∧ (l ++ y).dropWhile p = y := by
  induction l with
  | nil =>
    simp only [List.nil_append]
    cases y with
    | nil => simp
    | cons c cs =>
      simp only [headFails] at hy
      simp [List.takeWhile_cons, List.dropWhile_cons, hy]
  | cons c cs ih =>
    rw [List.all_cons, Bool.and_eq_true] at hl
    have h2 := ih hl.2
    simp [List.takeWhile_cons, List.dropWhile_cons, hl.1, h2.1, h2.2]

theorem digit_char_facts : ∀ n : Nat, n < 10 →
    isDigitC (Char.ofNat (48 + n)) = true ∧ digitVal (Char.ofNat (48 + n)) = n := by
  decide

theorem digitsToNat_append (ds : List Char) (d : Char) :
    digitsToNat (ds ++ [d]) = digitsToNat ds * 10 + digitVal d := by
  simp [digitsToNat, List.foldl_append]

theorem natDigitsAux_spec : ∀ fuel n : Nat, n < fuel →
    (natDigitsAux fuel n).all isDigitC = true ∧ natDigitsAux fuel n ≠ []
    ∧ digitsToNat (natDigitsAux fuel n) = n := by
  intro fuel
  induction fuel with
  | zero => intro n h; omega
  | succ f ih =>
    intro n h
    by_cases h10 : n < 10
    · rw [natDigitsAux, if_pos h10]
      obtain ⟨hd, hv⟩ := digit_char_facts n h10
      exact ⟨by simp [hd], by simp, by simp [digitsToNat, hv]⟩
    · rw [natDigitsAux, if_neg h10]
      have h1 : n / 10 < n := Nat.div_lt_self (by omega) (by omega)
      have hdiv : n / 10 < f := by omega
      obtain ⟨ha, hne, hv⟩ := ih (n / 10) hdiv
      obtain ⟨hd, hdv⟩ := digit_char_facts (n % 10) (Nat.mod_lt n (by omega))
      refine ⟨?_, by simp, ?_⟩
      · rw [List.all_append, Bool.and_eq_true]
        exact ⟨ha, by simp [hd]⟩
      · rw [digitsToNat_append, hv, hdv]
        omega

theorem natDigits_spec (n : Nat) :
    (natDigits n).all isDigitC = true ∧ natDigits n ≠ []
    ∧ digitsToNat (natDigits n) = n :=
  natDigitsAux_spec (n + 1) n (by omega)

theorem isDigit_ne (c : Char) (h : isDigitC c = true) :
    c ≠ '-' ∧ c ≠ 'n' ∧ c ≠ '"' ∧ c ≠ '[' ∧ c ≠ '\x7b' ∧ c ≠ ']'
    ∧ c ≠ '\x7d' ∧ c ≠ ',' ∧ c ≠ ' ' := by
  refine ⟨?_, ?_, ?_, ?_, ?_, ?_, ?_, ?_, ?_⟩ <;>
    (intro h0; rw [h0] at h; revert h; decide)

theorem parseIntTok_round (n : Int) (rest : List Char)
    (hrest : headFails isDigitC rest) :
    parseIntTok (renderInt n ++ rest) = some (n, rest) := by
  by_cases hneg : n < 0
  · obtain ⟨hall, hne, hval⟩ := natDigits_spec (-n).toNat
    obtain ⟨htake, hdrop⟩ := takeWhile_append_stop isDigitC _ rest hall hrest
    rw [renderInt, if_pos hneg, List.cons_append, parseIntTok, if_pos rfl,
      htake, hdrop]
    have hie : (natDigits (-n).toNat).isEmpty = false := by
      cases hd : natDigits (-n).toNat with
      | nil => exact absurd hd hne
      | cons a b => rfl
    rw [hie]
    simp only [Bool.false_eq_true, if_false, hval]
    have hcast : (((-n).toNat : Nat) : Int) = -n := Int.toNat_of_nonneg (by omega)
    rw [hcast]
    simp
  · obtain ⟨hall, hne, hval⟩ := natDigits_spec n.toNat
    obtain ⟨htake, hdrop⟩ := takeWhile_append_stop isDigitC _ rest hall hrest
    rw [renderInt, if_neg hneg]
    cases hd : natDigits n.toNat with
    | nil => exact absurd hd hne
    | cons a b =>
      rw [hd] at htake hdrop hall hval
      rw [List.cons_append] at htake hdrop
      have ha : isDigitC a = true := by
        rw [List.all_cons, Bool.and_eq_true] at hall
        exact hall.1
      rw [List.cons_append, parseIntTok, if_neg (isDigit_ne a ha).1,
        htake, hdrop]
      have hie : (a :: b).isEmpty = false := rfl
      rw [hie]
      simp only [Bool.false_eq_true, if_false, hval]
      have hcast : ((n.toNat : Nat) : Int) = n := Int.toNat_of_nonneg (by omega)
      rw [hcast]

theorem hexRound : ∀ m : Nat, m < 16 → hexVal (hexDigitChar m) = some m := by
  decide

theorem parseStrBody_round (s rest : List Char) :
    parseStrBody (escStr s ++ '"' :: rest) = some (s, rest) := by
  induction s with
  | nil =>
    rw [show escStr [] = [] from rfl, List.nil_append, parseStrBody.eq_def]
    simp
  | cons c cs ih =>
    have hesc : escStr (c :: cs) ++ '"' :: rest
        = escChar c ++ (escStr cs ++ '"' :: rest) := by
      simp [escStr]
    rw [hesc]
    by_cases h1 : c = '"'
    · subst h1
      rw [show escChar '"' = ['\\', '"'] from rfl]
      simp only [List.cons_append, List.nil_append]
      rw [parseStrBody.eq_def]
      simp [ih]
    · by_cases h2 : c = '\\'
      · subst h2
        rw [show escChar '\\' = ['\\', '\\'] from rfl]
        simp only [List.cons_append, List.nil_append]
        rw [parseStrBody.eq_def]
        simp [ih]
      · by_cases h3 : c = '\n'
        · subst h3
          rw [show escChar '\n' = ['\\', 'n'] from rfl]
          simp only [List.cons_append, List.nil_append]
          rw [parseStrBody.eq_def]
          simp [ih]
        · by_cases h4 : c = '\t'
          · subst h4
            rw [show escChar '\t' = ['\\', 't'] from rfl]
            simp only [List.cons_append, List.nil_append]
            rw [parseStrBody.eq_def]
            simp [ih]
          · by_cases h5 : c = '\x0d'
            · subst h5
              rw [show escChar '\x0d' = ['\\', 'r'] from rfl]
              simp only [List.cons_append, List.nil_append]
              rw [parseStrBody.eq_def]
              simp [ih]
            · by_cases h6 : c = '\x08'
              · subst h6
                rw [show escChar '\x08' = ['\\', 'b'] from rfl]
                simp only [List.cons_append, List.nil_append]
                rw [parseStrBody.eq_def]
                simp [ih]
              · by_cases h7 : c = '\x0c'
                · subst h7
                  rw [show escChar '\x0c' = ['\\', 'f'] from rfl]
                  simp only [List.cons_append, List.nil_append]
                  rw [parseStrBody.eq_def]
                  simp [ih]
                · by_cases h8 : c.toNat < 32
                  · have he : escChar c = ['\\', 'u', '0', '0',
                        hexDigitChar (c.toNat / 16), hexDigitChar (c.toNat % 16)] := by
                      rw [escChar, if_neg h1, if_neg h2, if_neg h3, if_neg h4,
                        if_neg h5, if_neg h6, if_neg h7, if_pos h8]
                    have hx : hexVal (hexDigitChar (c.toNat / 16)) = some (c.toNat / 16) :=
                      hexRound _ (by omega)
                    have hy : hexVal (hexDigitChar (c.toNat % 16)) = some (c.toNat % 16) :=
                      hexRound _ (by omega)
                    have h00 : hexVal '0' = some 0 := by decide
                    have hofn : Char.ofNat (c.toNat / 16 * 16 + c.toNat % 16) = c := by
                      rw [show c.toNat / 16 * 16 + c.toNat % 16
                          = c.toNat from by omega, Char.ofNat_toNat]
                    rw [he]
                    simp only [List.cons_append, List.nil_append]
                    rw [parseStrBody.eq_def]
                    simp [h00, hx, hy, ih, hofn]
                  · have he : escChar c = [c] := by
                      rw [escChar, if_neg h1, if_neg h2, if_neg h3, if_neg h4,
                        if_neg h5, if_neg h6, if_neg h7, if_neg h8]
                    rw [he]
                    simp only [List.cons_append, List.nil_append]
                    rw [parseStrBody.eq_def]
                    simp [h1, h2, ih]

theorem null_prefix_false (c : Char) (x : List Char) (hc : c ≠ 'n') :
    (chars "null").isPrefixOf (c :: x) = false := by
  rw [show chars "null" = 'n' :: chars "ull" from rfl]
  exact isPrefixOf_cons_false _ _ _ _ (fun h => hc h.symm)

theorem null_not_prefix (c : Char) (hc : c ≠ 'n') (x : List Char) :
    ¬ chars "null" <+: (c :: x) := by
  intro h
  have h2 := List.isPrefixOf_iff_prefix.mpr h
  rw [null_prefix_false _ _ hc] at h2
  exact Bool.false_ne_true h2

theorem sizeJ_pos (v : JVal) : 1 ≤ sizeJ v := by
  cases v <;> simp [sizeJ]

theorem sizeA_pos (a : JArr) : 1 ≤ sizeA a := by
  cases a with
  | anil => simp [sizeA]
  | acons v t => simp [sizeA]; have := sizeJ_pos v; omega

theorem sizeO_pos (o : JObj) : 1 ≤ sizeO o := by
  cases o with
  | onil => simp [sizeO]
  | ocons k v t => simp [sizeO]; have := sizeJ_pos v; omega

theorem renderInt_head (n : Int) : ∃ c x, renderInt n = c :: x
    ∧ (c = '-' ∨ isDigitC c = true) := by
  rw [renderInt]
  by_cases hn : n < 0
  · rw [if_pos hn]
    exact ⟨'-', _, rfl, Or.inl rfl⟩
  · rw [if_neg hn]
    obtain ⟨hall, hne, _⟩ := natDigits_spec n.toNat
    cases hd : natDigits n.toNat with
    | nil => exact absurd hd hne
    | cons a b =>
      rw [hd, List.all_cons, Bool.and_eq_true] at hall
      exact ⟨a, b, rfl, Or.inr hall.1⟩

theorem renderJ_head (v : JVal) : ∃ c x, renderJ v = c :: x
    ∧ c ≠ ']' ∧ c ≠ '\x7d' ∧ c ≠ ',' ∧ c ≠ ' ' := by
  cases v with
  | jnull => exact ⟨'n', chars "ull", rfl, by decide, by decide, by decide, by decide⟩
  | jstr s =>
    exact ⟨'"', escStr s ++ ['"'], rfl, by decide, by decide, by decide, by decide⟩
  | jint n =>
    obtain ⟨c, x, hcx, hc⟩ := renderInt_head n
    have hfacts : c ≠ ']' ∧ c ≠ '\x7d' ∧ c ≠ ',' ∧ c ≠ ' ' := by
      rcases hc with h | h
      · subst h
        exact ⟨by decide, by decide, by decide, by decide⟩
      · have h2 := isDigit_ne c h
        exact ⟨h2.2.2.2.2.2.1, h2.2.2.2.2.2.2.1, h2.2.2.2.2.2.2.2.1,
          h2.2.2.2.2.2.2.2.2⟩
    exact ⟨c, x, hcx, hfacts.1, hfacts.2.1, hfacts.2.2.1, hfacts.2.2.2⟩
  | jarr a =>
    exact ⟨'[', renderArr a ++ [']'], rfl, by decide, by decide, by decide, by decide⟩
  | jobj o =>
    exact ⟨'\x7b', renderObj o ++ ['\x7d'], rfl, by decide, by decide, by decide,
      by decide⟩

theorem skipSpaces_cons_nonspace (c : Char) (x : List Char) (h : c ≠ ' ') :
    skipSpaces (c :: x) = c :: x := by
  simp [skipSpaces, List.dropWhile_cons, h]

theorem skipSpaces_space (x : List Char) : skipSpaces (' ' :: x) = skipSpaces x := by
  simp [skipSpaces, List.dropWhile_cons]

theorem renderArr_cons_head (v : JVal) (t : JArr) :
    ∃ c y, renderArr (.acons v t) = c :: y
      ∧ c ≠ ']' ∧ c ≠ '\x7d' ∧ c ≠ ',' ∧ c ≠ ' ' := by
  obtain ⟨c, x, hcx, h1, h2, h3, h4⟩ := renderJ_head v
  cases t with
  | anil =>
    exact ⟨c, x,
      by rw [show renderArr (.acons v .anil) = renderJ v from rfl, hcx],
      h1, h2, h3, h4⟩
  | acons w t' =>
    refine ⟨c, x ++ (chars ", " ++ renderArr (.acons w t')), ?_, h1, h2, h3, h4⟩
    rw [show renderArr (.acons v (.acons w t'))
        = renderJ v ++ chars ", " ++ renderArr (.acons w t') from rfl, hcx]
    simp

theorem renderObj_cons_head (k : List Char) (v : JVal) (t : JObj) :
    ∃ y, renderObj (.ocons k v t) = '"' :: y := by
  cases t with
  | onil =>
    exact ⟨(escStr k ++ ['"']) ++ chars ": " ++ renderJ v,
      by rw [show renderObj (.ocons k v .onil)
          = '"' :: (escStr k ++ ['"']) ++ chars ": " ++ renderJ v from rfl]; simp⟩
  | ocons k2 v2 t' =>
    exact ⟨(escStr k ++ ['"']) ++ chars ": " ++ renderJ v ++ chars ", "
        ++ renderObj (.ocons k2 v2 t'),
      by rw [show renderObj (.ocons k v (.ocons k2 v2 t'))
          = '"' :: (escStr k ++ ['"']) ++ chars ": " ++ renderJ v ++ chars ", "
            ++ renderObj (.ocons k2 v2 t') from rfl]; simp⟩

theorem skipSpaces_render (v : JVal) (X : List Char) :
    skipSpaces (renderJ v ++ X) = renderJ v ++ X := by
  obtain ⟨c, x, hcx, _, _, _, hc4⟩ := renderJ_head v
  rw [hcx, List.cons_append, skipSpaces_cons_nonspace _ _ hc4]

theorem skipSpaces_renderArr (v : JVal) (t : JArr) (X : List Char) :
    skipSpaces (renderArr (.acons v t) ++ X) = renderArr (.acons v t) ++ X := by
  obtain ⟨c, y, hcy, _, _, _, hc4⟩ := renderArr_cons_head v t
  rw [hcy, List.cons_append, skipSpaces_cons_nonspace _ _ hc4]

theorem skipSpaces_renderObj (k : List Char) (v : JVal) (t : JObj) (X : List Char) :
    skipSpaces (renderObj (.ocons k v t) ++ X) = renderObj (.ocons k v t) ++ X := by
  obtain ⟨y, hy⟩ := renderObj_cons_head k v t
  rw [hy, List.cons_append, skipSpaces_cons_nonspace _ _ (by decide)]

theorem headFails_of_false {p : Char → Bool} {c : Char} (x : List Char)
    (h : p c = false) : headFails p (c :: x) := by
  simp [headFails, h]

mutual

theorem parseJV_round : ∀ (v : JVal) (fuel : Nat) (rest : List Char),
    sizeJ v < fuel → headFails isDigitC rest →
    parseJV fuel (renderJ v ++ rest) = some (v, rest)
  | _, 0, _, hf, _ => absurd hf (by omega)
  | .jnull, fuel + 1, rest, _, _ => by
    have h0 : renderJ JVal.jnull ++ rest = 'n' :: 'u' :: 'l' :: 'l' :: rest := rfl
    have hnp : (chars "null").isPrefixOf ('n' :: 'u' :: 'l' :: 'l' :: rest) = true := by
      rw [show chars "null" = ['n', 'u', 'l', 'l'] from rfl]
      exact isPrefixOf_append_self ['n', 'u', 'l', 'l'] rest
    rw [h0]
    simp [parseJV, hnp]
  | .jstr s, fuel + 1, rest, _, _ => by
    have h0 : renderJ (.jstr s) ++ rest = '"' :: (escStr s ++ '"' :: rest) := by
      show ('"' :: (escStr s ++ ['"'])) ++ rest = _
      simp
    have hnp : (chars "null").isPrefixOf ('"' :: (escStr s ++ '"' :: rest)) = false :=
      null_prefix_false _ _ (by decide)
    rw [h0]
    simp [parseJV, hnp, parseStrBody_round]
  | .jint n, fuel + 1, rest, _, hrest => by
    obtain ⟨c, x, hcx, hcd⟩ := renderInt_head n
    have hf : c ≠ 'n' ∧ c ≠ '"' ∧ c ≠ '[' ∧ c ≠ '\x7b' := by
      rcases hcd with h | h
      · subst h; exact ⟨by decide, by decide, by decide, by decide⟩
      · have h2 := isDigit_ne c h
        exact ⟨h2.2.1, h2.2.2.1, h2.2.2.2.1, h2.2.2.2.2.1⟩
    have h0 : renderJ (.jint n) ++ rest = c :: (x ++ rest) := by
      rw [show renderJ (.jint n) = renderInt n from rfl, hcx]
      simp
    have hnp : (chars "null").isPrefixOf (c :: (x ++ rest)) = false :=
      null_prefix_false _ _ hf.1
    have hint : parseIntTok (c :: (x ++ rest)) = some (n, rest) := by
      rw [show c :: (x ++ rest) = renderInt n ++ rest from by rw [hcx]; simp]
      exact parseIntTok_round n rest hrest
    rw [h0]
    simp [parseJV, hnp, hf.2.1, hf.2.2.1, hf.2.2.2, hint]
  | .jarr a, fuel + 1, rest, hsz, _ => by
    have h0 : renderJ (.jarr a) ++ rest = '[' :: (renderArr a ++ ']' :: rest) := by
      show ('[' :: (renderArr a ++ [']'])) ++ rest = _
      simp
    have hnp : (chars "null").isPrefixOf ('[' :: (renderArr a ++ ']' :: rest)) = false :=
      null_prefix_false _ _ (by decide)
    rw [h0]
    cases a with
    | anil => simp [parseJV, hnp, null_not_prefix '[' (by decide), renderArr]
    | acons v t =>
      obtain ⟨c, y, hcy, hc1, _, _, _⟩ := renderArr_cons_head v t
      have hitems : parseArrItems fuel (c :: (y ++ ']' :: rest))
          = some (JArr.acons v t, rest) := by
        rw [show c :: (y ++ ']' :: rest) = renderArr (.acons v t) ++ ']' :: rest from
          by rw [hcy]; simp]
        exact parseArrItems_round v t fuel rest (by
          rw [show sizeJ (.jarr (.acons v t)) = sizeA (.acons v t) + 1 from rfl] at hsz
          omega)
      simp [parseJV, hnp, null_not_prefix '[' (by decide), hcy, hc1, hitems]
  | .jobj o, fuel + 1, rest, hsz, _ => by
    have h0 : renderJ (.jobj o) ++ rest = '\x7b' :: (renderObj o ++ '\x7d' :: rest) := by
      show ('\x7b' :: (renderObj o ++ ['\x7d'])) ++ rest = _
      simp
    have hnp : (chars "null").isPrefixOf ('\x7b' :: (renderObj o ++ '\x7d' :: rest))
        = false := null_prefix_false _ _ (by decide)
    rw [h0]
    cases o with
    | onil => simp [parseJV, hnp, null_not_prefix '\x7b' (by decide), renderObj]
    | ocons k v t =>
      obtain ⟨y, hy⟩ := renderObj_cons_head k v t
      have hitems : parseObjItems fuel ('"' :: (y ++ '\x7d' :: rest))
          = some (JObj.ocons k v t, rest) := by
        rw [show '"' :: (y ++ '\x7d' :: rest)
            = renderObj (.ocons k v t) ++ '\x7d' :: rest from by rw [hy]; simp]
        exact parseObjItems_round k v t fuel rest (by
          rw [show sizeJ (.jobj (.ocons k v t)) = sizeO (.ocons k v t) + 1 from rfl] at hsz
          omega)
      simp [parseJV, hnp, null_not_prefix '\x7b' (by decide), hy, hitems]

theorem parseArrItems_round : ∀ (v : JVal) (t : JArr) (fuel : Nat) (rest : List Char),
    sizeA (.acons v t) < fuel →
    parseArrItems fuel (renderArr (.acons v t) ++ ']' :: rest)
      = some (JArr.acons v t, rest)
  | _, _, 0, _, hf => absurd hf (by omega)
  | v, .anil, fuel + 1, rest, hsz => by
    have h0 : renderArr (.acons v .anil) ++ ']' :: rest = renderJ v ++ ']' :: rest := rfl
    have hv : parseJV fuel (renderJ v ++ ']' :: rest) = some (v, ']' :: rest) :=
      parseJV_round v fuel (']' :: rest)
        (by rw [show sizeA (.acons v .anil) = sizeJ v + 1 from rfl] at hsz; omega)
        (headFails_of_false _ (by decide))
    rw [h0]
    simp [parseArrItems, hv]
  | v, .acons w t', fuel + 1, rest, hsz => by
    have h0 : renderArr (.acons v (.acons w t')) ++ ']' :: rest
        = renderJ v ++ (',' :: ' ' :: (renderArr (.acons w t') ++ ']' :: rest)) := by
      rw [show renderArr (.acons v (.acons w t'))
          = renderJ v ++ chars ", " ++ renderArr (.acons w t') from rfl,
        show chars ", " = [',', ' '] from rfl]
      simp
    have hszv : sizeJ v < fuel := by
      rw [show sizeA (.acons v (.acons w t'))
          = sizeJ v + sizeA (.acons w t') from rfl] at hsz
      have := sizeA_pos (JArr.acons w t')
      omega
    have hv := parseJV_round v fuel
      (',' :: ' ' :: (renderArr (.acons w t') ++ ']' :: rest)) hszv
      (headFails_of_false _ (by decide))
    have hrec := parseArrItems_round w t' fuel rest (by
      rw [show sizeA (.acons v (.acons w t'))
          = sizeJ v + sizeA (.acons w t') from rfl] at hsz
      have := sizeJ_pos v
      omega)
    have hskip : skipSpaces (' ' :: (renderArr (.acons w t') ++ ']' :: rest))
        = renderArr (.acons w t') ++ ']' :: rest := by
      rw [skipSpaces_space]
      exact skipSpaces_renderArr w t' (']' :: rest)
    rw [h0]
    simp [parseArrItems, hv, hskip, hrec]

theorem parseObjItems_round : ∀ (k : List Char) (v : JVal) (t : JObj) (fuel : Nat)
    (rest : List Char),
    sizeO (.ocons k v t) < fuel →
    parseObjItems fuel (renderObj (.ocons k v t) ++ '\x7d' :: rest)
      = some (JObj.ocons k v t, rest)
  | _, _, _, 0, _, hf => absurd hf (by omega)
  | k, v, .onil, fuel + 1, rest, hsz => by
    have h0 : renderObj (.ocons k v .onil) ++ '\x7d' :: rest
        = '"' :: (escStr k ++ '"' :: (':' :: ' ' :: (renderJ v ++ '\x7d' :: rest))) := by
      rw [show renderObj (.ocons k v .onil)
          = '"' :: (escStr k ++ ['"']) ++ chars ": " ++ renderJ v from rfl,
        show chars ": " = [':', ' '] from rfl]
      simp
    have hstr := parseStrBody_round k (':' :: ' ' :: (renderJ v ++ '\x7d' :: rest))
    have hv := parseJV_round v fuel ('\x7d' :: rest)
      (by rw [show sizeO (.ocons k v .onil) = sizeJ v + 1 from rfl] at hsz; omega)
      (headFails_of_false _ (by decide))
    have hskip : skipSpaces (' ' :: (renderJ v ++ '\x7d' :: rest))
        = renderJ v ++ '\x7d' :: rest := by
      rw [skipSpaces_space]
      exact skipSpaces_render v ('\x7d' :: rest)
    rw [h0]
    simp [parseObjItems, hstr, hskip, hv]
  | k, v, .ocons k2 v2 t', fuel + 1, rest, hsz => by
    have h0 : renderObj (.ocons k v (.ocons k2 v2 t')) ++ '\x7d' :: rest
        = '"' :: (escStr k ++ '"' :: (':' :: ' ' :: (renderJ v
            ++ (',' :: ' ' :: (renderObj (.ocons k2 v2 t') ++ '\x7d' :: rest))))) := by
      rw [show renderObj (.ocons k v (.ocons k2 v2 t'))
          = '"' :: (escStr k ++ ['"']) ++ chars ": " ++ renderJ v ++ chars ", "
            ++ renderObj (.ocons k2 v2 t') from rfl,
        show chars ": " = [':', ' '] from rfl, show chars ", " = [',', ' '] from rfl]
      simp
    have hstr := parseStrBody_round k (':' :: ' ' :: (renderJ v
      ++ (',' :: ' ' :: (renderObj (.ocons k2 v2 t') ++ '\x7d' :: rest))))
    have hszv : sizeJ v < fuel := by
      rw [show sizeO (.ocons k v (.ocons k2 v2 t'))
          = sizeJ v + sizeO (.ocons k2 v2 t') from rfl] at hsz
      have := sizeO_pos (JObj.ocons k2 v2 t')
      omega
    have hv := parseJV_round v fuel
      (',' :: ' ' :: (renderObj (.ocons k2 v2 t') ++ '\x7d' :: rest)) hszv
      (headFails_of_false _ (by decide))
    have hrec := parseObjItems_round k2 v2 t' fuel rest (by
      rw [show sizeO (.ocons k v (.ocons k2 v2 t'))
          = sizeJ v + sizeO (.ocons k2 v2 t') from rfl] at hsz
      have := sizeJ_pos v
      omega)
    have hskip1 : skipSpaces (' ' :: (renderJ v
        ++ (',' :: ' ' :: (renderObj (.ocons k2 v2 t') ++ '\x7d' :: rest))))
        = renderJ v ++ (',' :: ' ' :: (renderObj (.ocons k2 v2 t') ++ '\x7d' :: rest)) := by
      rw [skipSpaces_space]
      exact skipSpaces_render v _
    have hskip2 : skipSpaces (' ' :: (renderObj (.ocons k2 v2 t') ++ '\x7d' :: rest))
        = renderObj (.ocons k2 v2 t') ++ '\x7d' :: rest := by
      rw [skipSpaces_space]
      exact skipSpaces_renderObj k2 v2 t' ('\x7d' :: rest)
    rw [h0]
    simp [parseObjItems, hstr, hskip1, hv, hskip2, hrec]

end

/-! No rendered JSON value contains a raw newline: `json.dumps` escapes
newlines inside strings, so each JSONL record occupies exactly one line. -/

theorem hexDigitChar_ne_nl (m : Nat) (hm : m < 16) : hexDigitChar m ≠ '\n' := by
  interval_cases m <;> decide

theorem escChar_noNl (c : Char) : '\n' ∉ escChar c := by
  rw [escChar]
  by_cases h1 : c = '"'
  · rw [if_pos h1]; decide
  · rw [if_neg h1]
    by_cases h2 : c = '\\'
    · rw [if_pos h2]; decide
    · rw [if_neg h2]
      by_cases h3 : c = '\n'
      · rw [if_pos h3]; decide
      · rw [if_neg h3]
        by_cases h4 : c = '\t'
        · rw [if_pos h4]; decide
        · rw [if_neg h4]
          by_cases h5 : c = '\x0d'
          · rw [if_pos h5]; decide
          · rw [if_neg h5]
            by_cases h6 : c = '\x08'
            · rw [if_pos h6]; decide
            · rw [if_neg h6]
              by_cases h7 : c = '\x0c'
              · rw [if_pos h7]; decide
              · rw [if_neg h7]
                by_cases h8 : c.toNat < 32
                · rw [if_pos h8]
                  intro hmem
                  have hx := hexDigitChar_ne_nl (c.toNat / 16) (by omega)
                  have hy := hexDigitChar_ne_nl (c.toNat % 16) (by omega)
                  simp at hmem
                  rcases hmem with h | h
                  · exact hx h.symm
                  · exact hy h.symm
                · rw [if_neg h8]
                  intro hmem
                  simp at hmem
                  exact h3 hmem.symm

theorem escStr_noNl (s : List Char) : '\n' ∉ escStr s := by
  induction s with
  | nil => intro h; exact absurd h (by decide)
  | cons c cs ih =>
    intro h
    rw [show escStr (c :: cs) = escChar c ++ escStr cs from by simp [escStr]] at h
    rcases List.mem_append.mp h with h | h
    · exact escChar_noNl c h
    · exact ih h

theorem digit_ne_nl (c : Char) (h : isDigitC c = true) : c ≠ '\n' := by
  intro h0
  rw [h0] at h
  exact absurd h (by decide)

theorem natDigits_noNl (n : Nat) : '\n' ∉ natDigits n := by
  intro h
  obtain ⟨hall, _, _⟩ := natDigits_spec n
  exact digit_ne_nl '\n' (List.all_eq_true.mp hall _ h) rfl

theorem renderInt_noNl (n : Int) : '\n' ∉ renderInt n := by
  rw [renderInt]
  by_cases hn : n < 0
  · rw [if_pos hn]
    intro h
    rcases List.mem_cons.mp h with h | h
    · exact absurd h (by decide)
    · exact natDigits_noNl _ h
  · rw [if_neg hn]
    exact natDigits_noNl _

mutual

theorem renderJ_noNl : ∀ v : JVal, '\n' ∉ renderJ v
  | .jnull => by
    rw [show renderJ .jnull = ['n', 'u', 'l', 'l'] from rfl]
    decide
  | .jstr s => by
    intro h
    rw [show renderJ (.jstr s) = '"' :: (escStr s ++ ['"']) from rfl] at h
    simp at h
    exact escStr_noNl s h
  | .jint n => by
    intro h
    exact renderInt_noNl n h
  | .jarr a => by
    intro h
    rw [show renderJ (.jarr a) = '[' :: (renderArr a ++ [']']) from rfl] at h
    simp at h
    exact renderArr_noNl a h
  | .jobj o => by
    intro h
    rw [show renderJ (.jobj o) = '\x7b' :: (renderObj o ++ ['\x7d']) from rfl] at h
    simp at h
    exact renderObj_noNl o h

theorem renderArr_noNl : ∀ a : JArr, '\n' ∉ renderArr a
  | .anil => by
    rw [show renderArr .anil = [] from rfl]
    intro h
    exact absurd h (by decide)
  | .acons v .anil => by
    rw [show renderArr (.acons v .anil) = renderJ v from rfl]
    exact renderJ_noNl v
  | .acons v (.acons w t) => by
    intro h
    rw [show renderArr (.acons v (.acons w t))
        = renderJ v ++ chars ", " ++ renderArr (.acons w t) from rfl,
      show chars ", " = [',', ' '] from rfl] at h
    simp at h
    rcases h with h | h
    · exact renderJ_noNl v h
    · exact renderArr_noNl (.acons w t) h

theorem renderObj_noNl : ∀ o : JObj, '\n' ∉ renderObj o
  | .onil => by
    rw [show renderObj .onil = [] from rfl]
    intro h
    exact absurd h (by decide)
  | .ocons k v .onil => by
    intro h
    rw [show renderObj (.ocons k v .onil)
        = '"' :: (escStr k ++ ['"']) ++ chars ": " ++ renderJ v from rfl,
      show chars ": " = [':', ' '] from rfl] at h
    simp at h
    rcases h with h | h
    · exact escStr_noNl k h
    · exact renderJ_noNl v h
  | .ocons k v (.ocons k2 v2 t) => by
    intro h
    rw [show renderObj (.ocons k v (.ocons k2 v2 t))
        = '"' :: (escStr k ++ ['"']) ++ chars ": " ++ renderJ v ++ chars ", "
          ++ renderObj (.ocons k2 v2 t) from rfl,
      show chars ": " = [':', ' '] from rfl,
      show chars ", " = [',', ' '] from rfl] at h
    simp at h
    rcases h with h | h | h
    · exact escStr_noNl k h
    · exact renderJ_noNl v h
    · exact renderObj_noNl (.ocons k2 v2 t) h

end

mutual

theorem sizeJ_le_render : ∀ v : JVal, sizeJ v ≤ (renderJ v).length
  | .jnull => by
    rw [show renderJ .jnull = ['n', 'u', 'l', 'l'] from rfl]
    simp [sizeJ]
  | .jstr s => by
    rw [show renderJ (.jstr s) = '"' :: (escStr s ++ ['"']) from rfl,
      show sizeJ (.jstr s) = 1 from rfl]
    simp
  | .jint n => by
    rw [show renderJ (.jint n) = renderInt n from rfl,
      show sizeJ (.jint n) = 1 from rfl, renderInt]
    by_cases hn : n < 0
    · rw [if_pos hn]
      simp
    · rw [if_neg hn]
      obtain ⟨_, hne, _⟩ := natDigits_spec n.toNat
      cases hd : natDigits n.toNat with
      | nil => exact absurd hd hne
      | cons a b => simp
  | .jarr a => by
    have h := sizeA_le_render a
    rw [show renderJ (.jarr a) = '[' :: (renderArr a ++ [']']) from rfl,
      show sizeJ (.jarr a) = sizeA a + 1 from rfl]
    simp
    omega
  | .jobj o => by
    have h := sizeO_le_render o
    rw [show renderJ (.jobj o) = '\x7b' :: (renderObj o ++ ['\x7d']) from rfl,
      show sizeJ (.jobj o) = sizeO o + 1 from rfl]
    simp
    omega

theorem sizeA_le_render : ∀ a : JArr, sizeA a ≤ (renderArr a).length + 1
  | .anil => by
    rw [show renderArr .anil = [] from rfl]
    simp [sizeA]
  | .acons v .anil => by
    have h := sizeJ_le_render v
    rw [show renderArr (.acons v .anil) = renderJ v from rfl,
      show sizeA (.acons v .anil) = sizeJ v + 1 from rfl]
    omega
  | .acons v (.acons w t) => by
    have h1 := sizeJ_le_render v
    have h2 := sizeA_le_render (.acons w t)
    rw [show renderArr (.acons v (.acons w t))
        = renderJ v ++ chars ", " ++ renderArr (.acons w t) from rfl,
      show chars ", " = [',', ' '] from rfl,
      show sizeA (.acons v (.acons w t)) = sizeJ v + sizeA (.acons w t) from rfl]
    simp
    omega

theorem sizeO_le_render : ∀ o : JObj, sizeO o ≤ (renderObj o).length + 1
  | .onil => by
    rw [show renderObj .onil = [] from rfl]
    simp [sizeO]
  | .ocons k v .onil => by
    have h := sizeJ_le_render v
    rw [show renderObj (.ocons k v .onil)
        = '"' :: (escStr k ++ ['"']) ++ chars ": " ++ renderJ v from rfl,
      show chars ": " = [':', ' '] from rfl,
      show sizeO (.ocons k v .onil) = sizeJ v + 1 from rfl]
    simp
    omega
  | .ocons k v (.ocons k2 v2 t) => by
    have h1 := sizeJ_le_render v
    have h2 := sizeO_le_render (.ocons k2 v2 t)
    rw [show renderObj (.ocons k v (.ocons k2 v2 t))
        = '"' :: (escStr k ++ ['"']) ++ chars ": " ++ renderJ v ++ chars ", "
          ++ renderObj (.ocons k2 v2 t) from rfl,
      show chars ": " = [':', ' '] from rfl,
      show chars ", " = [',', ' '] from rfl,
      show sizeO (.ocons k v (.ocons k2 v2 t))
        = sizeJ v + sizeO (.ocons k2 v2 t) from rfl]
    simp
    omega

end

/-- A full render parses back to the same value with nothing left over. -/
theorem parseJson_render (v : JVal) : parseJson (renderJ v) = some v := by
  have hsz : sizeJ v < (renderJ v).length + 1 := by
    have := sizeJ_le_render v
    omega
  have h := parseJV_round v ((renderJ v).length + 1) [] hsz (by simp [headFails])
  rw [List.append_nil] at h
  rw [parseJson, h]

/-- Splitting on a newline that terminates a newline-free line peels off
exactly that line. -/
theorem splitNl_line (l : List Char) (hl : '\n' ∉ l) (rest : List Char) :
    splitNl (l ++ '\n' :: rest) = l :: splitNl rest := by
  induction l with
  | nil => simp [splitNl]
  | cons c cs ih =>
    have hc : c ≠ '\n' := fun h => hl (by rw [h]; exact List.mem_cons_self _ _)
    have hcs : '\n' ∉ cs := fun h => hl (List.mem_cons_of_mem c h)
    rw [List.cons_append, splitNl.eq_def]
    simp [hc, ih hcs]

/-- `str.split` on the concatenation of newline-terminated, newline-free
lines returns those lines followed by one trailing empty piece. -/
theorem splitNl_flatten (lines : List (List Char))
    (h : ∀ l ∈ lines, '\n' ∉ l) :
    splitNl ((lines.map (fun l => l ++ ['\n'])).flatten) = lines ++ [[]] := by
  induction lines with
  | nil => simp [splitNl]
  | cons l ls ih =>
    rw [List.map_cons, List.flatten_cons, List.append_assoc,
      show ['\n'] ++ (ls.map (fun l => l ++ ['\n'])).flatten
        = '\n' :: (ls.map (fun l => l ++ ['\n'])).flatten from rfl,
      splitNl_line l (h l (List.mem_cons_self _ _)),
      ih (fun l' hm => h l' (List.mem_cons_of_mem _ hm))]
    rfl

/-! ## JSONL export (`dataset_exporter.export_to_jsonl`)

Each session becomes the reduced five-field record
`{"bug_id": f"{project}_{bug_id}", "project": ..., "logs": [...],
"timeline": [...], "root_cause": ...}` written as `json.dumps(entry) + "\n"`.
`listToJArr`/`listToJObj` build the JSON tree; a log entry's dataclass dict
carries its five fields, with the abstract instant rendered as a string
(standing for `isoformat`) and metadata values injected by `mvalJ`. -/

def listToJArr : List JVal → JArr
  | [] => .anil
  | v :: vs => .acons v (listToJArr vs)

def listToJObj : List (List Char × JVal) → JObj
  | [] => .onil
  | (k, v) :: rest => .ocons k v (listToJObj rest)

def mvalJ : MVal → JVal
  | .s v => .jstr v
  | .n v => .jint v
  | .i v => .jint v
  | .os none => .jnull
  | .os (some v) => .jstr v
  | .ls vs => .jarr (listToJArr (vs.map JVal.jstr))

def logJ (e : LogEntry) : JVal :=
  .jobj (listToJObj [
    (chars "timestamp", .jstr (renderInt e.timestamp)),
    (chars "level", .jstr e.level),
    (chars "source", .jstr e.source),
    (chars "message", .jstr e.message),
    (chars "metadata", .jobj (listToJObj (e.metadata.map (fun p => (p.1, mvalJ p.2)))))])

def jsonl_entry (s : SyntheticDebugSession) : JVal :=
  .jobj (listToJObj [
    (chars "bug_id", .jstr (s.bug_info.project ++ '_' :: s.bug_info.bug_id)),
    (chars "project", .jstr s.bug_info.project),
    (chars "logs", .jarr (listToJArr (s.log_sequence.map logJ))),
    (chars "timeline", .jarr (listToJArr (s.investigation_timeline.map JVal.jstr))),
    (chars "root_cause", .jstr s.root_cause_summary)])

/-- The byte stream `export_to_jsonl` writes: one `json.dumps` line plus
`"\n"` per session, in order. -/
def export_to_jsonl (sessions : List SyntheticDebugSession) : List Char :=
  (sessions.map (fun s => renderJ (jsonl_entry s) ++ ['\n'])).flatten

def objKeys : JObj → List (List Char)
  | .onil => []
  | .ocons k _ t => k :: objKeys t

def recordKeys : JVal → List (List Char)
  | .jobj o => objKeys o
  | _ => []

/-- C8: JSONL export of N sessions produces exactly N newline-terminated
lines, one per session in order; splitting the stream on newlines yields
those N record texts (plus the empty piece after the final newline, so
N+1 pieces in total); each line parses back as a single JSON record equal
to the session's reduced entry; and every record carries exactly the five
reduced keys bug_id, project, logs, timeline, root_cause (test outcomes
omitted). -/
theorem c8_jsonl_roundtrip (sessions : List SyntheticDebugSession) :
    splitNl (export_to_jsonl sessions)
        = sessions.map (fun s => renderJ (jsonl_entry s)) ++ [[]]
    ∧ (splitNl (export_to_jsonl sessions)).length = sessions.length + 1
    ∧ ((splitNl (export_to_jsonl sessions)).dropLast).map parseJson
        = sessions.map (fun s => some (jsonl_entry s))
    ∧ sessions.map (fun s => recordKeys (jsonl_entry s))
        = sessions.map (fun _ => [chars "bug_id", chars "project", chars "logs",
            chars "timeline", chars "root_cause"]) := by
  have hlines : splitNl (export_to_jsonl sessions)
      = sessions.map (fun s => renderJ (jsonl_entry s)) ++ [[]] := by
    rw [export_to_jsonl,
      show (sessions.map (fun s => renderJ (jsonl_entry s) ++ ['\n']))
        = (sessions.map (fun s => renderJ (jsonl_entry s))).map (fun l => l ++ ['\n'])
        from by rw [List.map_map]; rfl]
    refine splitNl_flatten _ ?_
    intro l hm
    simp at hm
    obtain ⟨s, _, hs⟩ := hm
    rw [← hs]
    exact renderJ_noNl _
  refine ⟨hlines, ?_, ?_, ?_⟩
  · rw [hlines]
    simp
  · rw [hlines]
    have hdl : (List.map (fun s => renderJ (jsonl_entry s)) sessions ++ [[]]).dropLast
        = List.map (fun s => renderJ (jsonl_entry s)) sessions := by simp
    rw [hdl, List.map_map]
    refine List.map_congr_left ?_
    intro s _
    exact parseJson_render _
  · refine List.map_congr_left ?_
    intro s _
    rfl
